import Mathlib

/-!
Verification of the module-to-cli introspection engine against its
natural-language specification.

The development shallowly embeds the TypeScript sources:

* `src/parse.ts` (`ModuleParser`): the type-expression normalizer
  (`parseType`, `splitGenericArgs`), the documentation-comment extractor
  (`parseJSDoc`, `extractParams`, `extractReturns`), the member classifier
  (`processFunctionDeclaration`, `processVariableDeclaration`,
  `processClassDeclaration`, `processMethod`, `processPropertyMethod`,
  `processAccessor`, `processNamespaceDeclaration`), the module walker
  (`parseSourceFile`, `extractModuleInfo`, `extractImports`,
  `extractExports`) and the `parse` entry point.
* `src/main.ts` (`main`): the invocation CLI's dispatch, modelled as an
  event trace.

JavaScript strings are modelled as `List Char`.  External collaborators
(the `ts-morph` AST toolkit, the `comment-parser` library, `@std/cli`
argument parsing, the filesystem) are modelled at their interfaces: a node
model carries exactly the data the repository code queries from them, and
the comment parser's outcome is a value that is either a thrown error, an
empty block list, or parsed blocks.
-/

/-- JavaScript strings are modelled as lists of characters. -/
abbrev Str := List Char

/-- Conversion from a Lean string literal to the model type. -/
def str (s : String) : Str := s.data

/-- Membership of `pat` as a contiguous substring, JS `String.includes`. -/
def hasSub (pat : Str) (s : Str) : Bool :=
  match s with
  | [] => pat.isEmpty
  | _ :: rest => pat.isPrefixOf s || hasSub pat rest

/-- JS `String.replace(pat, '')` with a string pattern: removes the first
occurrence of `pat` (no-op when `pat` does not occur). -/
def removeFirst (pat : Str) (s : Str) : Str :=
  match s with
  | [] => []
  | c :: rest => if pat.isPrefixOf s then s.drop pat.length else c :: removeFirst pat rest

/-- JS `String.trim`, restricted to the ASCII whitespace the repo's type
strings can contain. -/
def trim (s : Str) : Str :=
  ((s.dropWhile Char.isWhitespace).reverse.dropWhile Char.isWhitespace).reverse

/-- JS `String.endsWith` for a single-character suffix. -/
def endsWithChar (c : Char) (s : Str) : Bool := s.getLast? = some c

/-- JS `String.startsWith` for a single-character prefix. -/
def startsWithChar (c : Char) (s : Str) : Bool := s.head? = some c

/-- JS `String.slice(0, -n)`: drop the last `n` characters. -/
def dropLastN (n : Nat) (s : Str) : Str := s.take (s.length - n)

/-- The remainder of `s` after the first (leftmost) occurrence of `pat`;
`none` when `pat` does not occur. -/
def afterFirstSub (pat : Str) (s : Str) : Option Str :=
  match s with
  | [] => if pat.isEmpty then some [] else none
  | _ :: rest =>
    if pat.isPrefixOf s then some (s.drop pat.length)
    else afterFirstSub pat rest

/-- The part of `s` strictly before the last occurrence of `ch`; `none`
when `ch` does not occur. -/
def beforeLastChar (ch : Char) (s : Str) : Option Str :=
  match s with
  | [] => none
  | c :: rest =>
    match beforeLastChar ch rest with
    | some t => some (c :: t)
    | none => if c = ch then some [] else none

/-- The capture of the regex `pat(.+)>` used for `Promise<(.+)>` and
`Array<(.+)>`: the text between the first occurrence of `pat` and the last
`>` of the string, provided it is nonempty.  When the leftmost occurrence
of the literal head cannot be completed to a match, no later occurrence
can (the final `>` is fixed), so the regex fails altogether. -/
def greedyGroup (pat : Str) (s : Str) : Option Str :=
  match afterFirstSub pat s with
  | none => none
  | some rest =>
    match beforeLastChar '>' rest with
    | none => none
    | some g => if g = [] then none else some g

/-- JS regex `\w` on ASCII input. -/
def isWordChar (c : Char) : Bool := c.isAlphanum || c = '_'

/-- Matcher for the generic-type regex `(\w+)<(.+)>`: scans for the first
`<` immediately preceded by a word character; the first capture is the
maximal word run ending there, the second the greedy text up to the last
`>` of the string.  `run` holds the current word run in reverse. -/
def findGeneric (run : Str) (s : Str) : Option (Str × Str) :=
  match s with
  | [] => none
  | c :: rest =>
    if c = '<' && !run.isEmpty then
      match beforeLastChar '>' rest with
      | some g => if g = [] then none else some (run.reverse, g)
      | none => none
    else if isWordChar c then findGeneric (c :: run) rest
    else findGeneric [] rest

/-- JS `String.split(sep)` (single-character separator). -/
def splitOnChar (sep : Char) (s : Str) : List Str :=
  match s with
  | [] => [[]]
  | c :: rest =>
    match splitOnChar sep rest with
    | [] => [[]]
    | h :: t => if c = sep then [] :: h :: t else (c :: h) :: t

/-- Loop body of `ModuleParser.splitGenericArgs` (src/parse.ts:208-230):
walks the argument text tracking `<`/`>` depth; a comma at depth zero ends
the current argument (pushed trimmed, even when empty), every other
character is appended.  `cur` holds the current argument in reverse. -/
def sgaAux (d : Int) (cur : Str) (s : Str) : List Str :=
  match s with
  | [] => if trim cur.reverse = [] then [] else [trim cur.reverse]
  | c :: rest =>
    if c = ',' && d = 0 then trim cur.reverse :: sgaAux 0 [] rest
    else
      let d' : Int := if c = '<' then d + 1 else if c = '>' then d - 1 else d
      sgaAux d' (c :: cur) rest

/-- `ModuleParser.splitGenericArgs`: split generic arguments on commas at
bracket depth zero. -/
def splitGenericArgs (argsString : Str) : List Str := sgaAux 0 [] argsString

/-- `TypeInfo` (src/types.ts:9-24): the normalized type descriptor. -/
@[ext]
structure TypeInfo where
  baseType : Str
  typeArguments : Option (List TypeInfo)
  unionTypes : Option (List TypeInfo)
  intersectionTypes : Option (List TypeInfo)
  isOptional : Bool
  isNullable : Bool
  rawType : Str

/-- The optionality flag of `ModuleParser.parseType` (src/parse.ts:91-92):
the input ends with `?` or contains the literal substring `|undefined`. -/
def optFlag (s : Str) : Bool := endsWithChar '?' s || hasSub (str "|undefined") s

/-- The nullability flag of `ModuleParser.parseType` (src/parse.ts:93):
the input contains the literal substring `|null`. -/
def nulFlag (s : Str) : Bool := hasSub (str "|null") s

/-- The cleaning step of `ModuleParser.parseType` (src/parse.ts:96-100):
remove the first `?`, the first `|undefined`, the first `|null`, then
trim. -/
def cleanOf (s : Str) : Str :=
  trim (removeFirst (str "|null") (removeFirst (str "|undefined") (removeFirst (str "?") s)))

/-- The ordered branch dispatch of `ModuleParser.parseType`
(src/parse.ts:102-203), parametrized by the recursive evaluator `rec` (the
source's recursive `this.parseType` calls), the already-computed flags,
the original input `raw` and the cleaned text `clean`.  Branch order as in
the source: Promise, `T[]`, `Array<T>`, generic, tuple, union,
intersection, fallback. -/
def parseTypeStep (rec : Str → TypeInfo) (isOpt isNul : Bool) (raw clean : Str) : TypeInfo :=
  match greedyGroup (str "Promise<") clean with
  | some g => ⟨str "Promise", some [rec g], none, none, isOpt, isNul, raw⟩
  | none =>
  if (str "[]").isSuffixOf clean then
    ⟨str "Array", some [rec (dropLastN 2 clean)], none, none, isOpt, isNul, raw⟩
  else
  match greedyGroup (str "Array<") clean with
  | some g => ⟨str "Array", some [rec g], none, none, isOpt, isNul, raw⟩
  | none =>
  match findGeneric [] clean with
  | some (g1, g2) =>
    ⟨g1, some ((splitGenericArgs g2).map rec), none, none, isOpt, isNul, raw⟩
  | none =>
  if startsWithChar '[' clean && endsWithChar ']' clean
      && !(trim ((clean.drop 1).dropLast)).isEmpty then
    ⟨clean, none, none, none, isOpt, isNul, raw⟩
  else if clean.contains '|' then
    let types := (splitOnChar '|' clean).map trim
    ⟨types.headD [], none, some (types.map rec), none, isOpt, isNul, raw⟩
  else if clean.contains '&' then
    let types := (splitOnChar '&' clean).map trim
    ⟨types.headD [], none, none, some (types.map rec), isOpt, isNul, raw⟩
  else
    ⟨clean, none, none, none, isOpt, isNul, raw⟩

/-- `ModuleParser.parseType` (src/parse.ts:81-203), with explicit fuel so
that the recursion over derived substrings is structural.  `cap` is
`this.config.captureComplexTypes`.  Each recursive call's argument is
strictly shorter than the input, so any fuel above the input length is
exhaustive (`parseTypeF_fuel`); the fuel-zero row is unreachable then.
Every branch in the source returns `rawType: typeString`, which the
fuel-zero row also respects. -/
def parseTypeF (cap : Bool) : Nat → Str → TypeInfo
  | 0, s => ⟨s, none, none, none, false, false, s⟩
  | n + 1, s =>
    if s = [] || !cap then
      -- `if (!typeString || !this.config.captureComplexTypes)`:
      -- `baseType: typeString || ''` and `rawType: typeString || ''`
      ⟨s, none, none, none, false, false, s⟩
    else
      parseTypeStep (parseTypeF cap n) (optFlag s) (nulFlag s) s (cleanOf s)

/-- `ASTParserConfig` (src/types.ts:164-179). -/
structure ASTParserConfig where
  captureInstanceMethods : Bool
  captureStaticMethods : Bool
  capturePropertyMethods : Bool
  captureGetAccessors : Bool
  captureSetAccessors : Bool
  captureArrowFunctions : Bool
  captureComplexTypes : Bool

/-- `DEFAULT_AST_CONFIG` (src/types.ts:184-192). -/
def DEFAULT_AST_CONFIG : ASTParserConfig := ⟨true, true, true, true, true, true, true⟩

/-- `ModuleParser.parseType` at adequate fuel. -/
def parseType (cfg : ASTParserConfig) (s : Str) : TypeInfo :=
  parseTypeF cfg.captureComplexTypes (s.length + 1) s

/-- Projection of the purely structural fields of a descriptor (everything
except the optionality/nullability flags and the raw text). -/
def structFields (t : TypeInfo) :
    Str × Option (List TypeInfo) × Option (List TypeInfo) × Option (List TypeInfo) :=
  (t.baseType, t.typeArguments, t.unionTypes, t.intersectionTypes)

theorem removeFirst_length_le (pat s : Str) : (removeFirst pat s).length ≤ s.length := by
  induction s with
  | nil => simp [removeFirst]
  | cons c rest ih =>
    simp only [removeFirst]
    split
    · calc ((c :: rest).drop pat.length).length = (c :: rest).length - pat.length :=
          List.length_drop _ _
        _ ≤ (c :: rest).length := Nat.sub_le _ _
    · simpa using ih

theorem trim_length_le (s : Str) : (trim s).length ≤ s.length := by
  unfold trim
  calc ((s.dropWhile Char.isWhitespace).reverse.dropWhile Char.isWhitespace).reverse.length
      = ((s.dropWhile Char.isWhitespace).reverse.dropWhile Char.isWhitespace).length :=
        List.length_reverse _
    _ ≤ (s.dropWhile Char.isWhitespace).reverse.length :=
        (List.dropWhile_sublist _).length_le
    _ = (s.dropWhile Char.isWhitespace).length := List.length_reverse _
    _ ≤ s.length := (List.dropWhile_sublist _).length_le

theorem cleanOf_length_le (s : Str) : (cleanOf s).length ≤ s.length := by
  unfold cleanOf
  exact (trim_length_le _).trans ((removeFirst_length_le _ _).trans
    ((removeFirst_length_le _ _).trans (removeFirst_length_le _ _)))

theorem afterFirstSub_length_lt (pat s r : Str) (hp : pat ≠ [])
    (h : afterFirstSub pat s = some r) : r.length < s.length := by
  induction s generalizing r with
  | nil =>
    simp only [afterFirstSub, List.isEmpty_iff] at h
    simp [hp] at h
  | cons c rest ih =>
    simp only [afterFirstSub] at h
    split at h
    · have hpre : pat <+: c :: rest := List.isPrefixOf_iff_prefix.mp (by assumption)
      have h1 : 0 < pat.length := List.length_pos.mpr hp
      have h2 : pat.length ≤ (c :: rest).length := hpre.length_le
      cases h
      rw [List.length_drop]
      omega
    · exact Nat.lt_succ_of_lt (ih _ h)

theorem beforeLastChar_length_lt (ch : Char) (s t : Str)
    (h : beforeLastChar ch s = some t) : t.length < s.length := by
  induction s generalizing t with
  | nil => simp [beforeLastChar] at h
  | cons c rest ih =>
    simp only [beforeLastChar] at h
    split at h
    · rename_i u heq
      cases h
      simpa using ih u heq
    · split at h
      · cases h
        simp
      · cases h

theorem greedyGroup_length_lt (pat s g : Str) (hp : pat ≠ [])
    (h : greedyGroup pat s = some g) : g.length < s.length := by
  unfold greedyGroup at h
  split at h
  · exact Option.noConfusion h
  · rename_i rest ha
    split at h
    · exact Option.noConfusion h
    · rename_i g' hb
      split at h
      · exact Option.noConfusion h
      · cases h
        exact (beforeLastChar_length_lt _ _ _ hb).trans (afterFirstSub_length_lt _ _ _ hp ha)

theorem findGeneric_length_lt (run s g1 g2 : Str)
    (h : findGeneric run s = some (g1, g2)) : g2.length < s.length := by
  induction s generalizing run with
  | nil => simp [findGeneric] at h
  | cons c rest ih =>
    simp only [findGeneric] at h
    split at h
    · split at h
      · rename_i g hb
        split at h
        · exact Option.noConfusion h
        · cases h
          exact Nat.lt_succ_of_lt (beforeLastChar_length_lt _ _ _ hb)
      · exact Option.noConfusion h
    · split at h
      · exact Nat.lt_succ_of_lt (ih _ h)
      · exact Nat.lt_succ_of_lt (ih _ h)

theorem sgaAux_mem_length (d : Int) (cur s p : Str) (h : p ∈ sgaAux d cur s) :
    p.length ≤ cur.length + s.length := by
  induction s generalizing d cur with
  | nil =>
    simp only [sgaAux] at h
    split at h
    · cases h
    · rcases List.mem_singleton.mp h with rfl
      simpa using (trim_length_le cur.reverse).trans (by simp)
  | cons c rest ih =>
    simp only [sgaAux] at h
    split at h
    · rcases List.mem_cons.mp h with rfl | hmem
      · have h1 : (trim cur.reverse).length ≤ cur.length :=
          (trim_length_le cur.reverse).trans (by simp)
        simp only [List.length_cons]
        omega
      · have := ih 0 [] hmem
        simp only [List.length_nil, List.length_cons] at this ⊢
        omega
    · have := ih _ (c :: cur) h
      simp only [List.length_cons] at this ⊢
      omega

theorem splitGenericArgs_mem_length (a p : Str) (h : p ∈ splitGenericArgs a) :
    p.length ≤ a.length := by
  simpa using sgaAux_mem_length 0 [] a p h

theorem splitOnChar_ne_nil (sep : Char) (s : Str) : splitOnChar sep s ≠ [] := by
  cases s with
  | nil => simp [splitOnChar]
  | cons c rest =>
    simp only [splitOnChar]
    split
    · simp
    · split <;> simp

theorem splitOnChar_mem_length_le (sep : Char) (s p : Str)
    (h : p ∈ splitOnChar sep s) : p.length ≤ s.length := by
  induction s generalizing p with
  | nil =>
    simp only [splitOnChar, List.mem_singleton] at h
    simp [h]
  | cons c rest ih =>
    simp only [splitOnChar] at h
    split at h
    · rename_i heq
      exact absurd heq (splitOnChar_ne_nil sep rest)
    · rename_i hd tl heq
      split at h
      · rcases List.mem_cons.mp h with rfl | hmem
        · simp
        · exact Nat.le_succ_of_le (ih p (heq ▸ hmem))
      · rcases List.mem_cons.mp h with rfl | hmem
        · have : hd.length ≤ rest.length := ih hd (heq ▸ List.mem_cons_self hd tl)
          simpa using this
        · exact Nat.le_succ_of_le (ih p (heq ▸ List.mem_cons_of_mem hd hmem))

theorem splitOnChar_mem_length_lt (sep : Char) (s p : Str) (hc : sep ∈ s)
    (h : p ∈ splitOnChar sep s) : p.length < s.length := by
  induction s generalizing p with
  | nil => cases hc
  | cons c rest ih =>
    simp only [splitOnChar] at h
    split at h
    · rename_i heq
      exact absurd heq (splitOnChar_ne_nil sep rest)
    · rename_i hd tl heq
      split at h
      · rcases List.mem_cons.mp h with rfl | hmem
        · simp
        · exact Nat.lt_succ_of_le (splitOnChar_mem_length_le sep rest p (heq ▸ hmem))
      · rename_i hne
        have hcrest : sep ∈ rest := by
          rcases List.mem_cons.mp hc with hh | hm
        
          · exact absurd hh.symm hne
          · exact hm
        rcases List.mem_cons.mp h with rfl | hmem
        · have : hd.length < rest.length := ih hd hcrest (heq ▸ List.mem_cons_self hd tl)
          simpa using this
        · exact Nat.lt_succ_of_lt (ih p hcrest (heq ▸ List.mem_cons_of_mem hd hmem))

theorem parseTypeStep_isOptional (rec : Str → TypeInfo) (o u : Bool) (r clean : Str) :
    (parseTypeStep rec o u r clean).isOptional = o := by
  unfold parseTypeStep
  repeat' split
  all_goals rfl

theorem parseTypeStep_isNullable (rec : Str → TypeInfo) (o u : Bool) (r clean : Str) :
    (parseTypeStep rec o u r clean).isNullable = u := by
  unfold parseTypeStep
  repeat' split
  all_goals rfl

theorem parseTypeStep_rawType (rec : Str → TypeInfo) (o u : Bool) (r clean : Str) :
    (parseTypeStep rec o u r clean).rawType = r := by
  unfold parseTypeStep
  repeat' split
  all_goals rfl

theorem parseTypeStep_congr (rec₁ rec₂ : Str → TypeInfo) (o₁ o₂ u₁ u₂ : Bool)
    (r₁ r₂ clean : Str)
    (h : ∀ t, t.length < clean.length → rec₁ t = rec₂ t) :
    structFields (parseTypeStep rec₁ o₁ u₁ r₁ clean) =
      structFields (parseTypeStep rec₂ o₂ u₂ r₂ clean) := by
  unfold parseTypeStep
  split
  · rename_i g hp
    rw [h g (greedyGroup_length_lt _ _ _ (by decide) hp)]
    rfl
  · split
    · rename_i hsuf
      have h2 : 2 ≤ clean.length := by
        simpa using (List.isSuffixOf_iff_suffix.mp hsuf).length_le
      have hlt : (dropLastN 2 clean).length < clean.length := by
        simp only [dropLastN, List.length_take]
        omega
      rw [h _ hlt]
      rfl
    · split
      · rename_i g ha
        rw [h g (greedyGroup_length_lt _ _ _ (by decide) ha)]
        rfl
      · split
        · rename_i g1 g2 hg
          have hmap : (splitGenericArgs g2).map rec₁ = (splitGenericArgs g2).map rec₂ :=
            List.map_congr_left (fun a ha =>
              h a ((splitGenericArgs_mem_length _ _ ha).trans_lt
                (findGeneric_length_lt _ _ _ _ hg)))
          rw [hmap]
          rfl
        · split
          · rfl
          · split
            · rename_i hbar
              have hmem : ('|' : Char) ∈ clean := List.elem_iff.mp hbar
              have hmap : ((splitOnChar '|' clean).map trim).map rec₁ =
                  ((splitOnChar '|' clean).map trim).map rec₂ := by
                apply List.map_congr_left
                intro a hma
                rcases List.mem_map.mp hma with ⟨q, hq, rfl⟩
                exact h _ ((trim_length_le q).trans_lt
                  (splitOnChar_mem_length_lt _ _ _ hmem hq))
              simp only [structFields, hmap]
            · split
              · rename_i hamp
                have hmem : ('&' : Char) ∈ clean := List.elem_iff.mp hamp
                have hmap : ((splitOnChar '&' clean).map trim).map rec₁ =
                    ((splitOnChar '&' clean).map trim).map rec₂ := by
                  apply List.map_congr_left
                  intro a hma
                  rcases List.mem_map.mp hma with ⟨q, hq, rfl⟩
                  exact h _ ((trim_length_le q).trans_lt
                    (splitOnChar_mem_length_lt _ _ _ hmem hq))
                simp only [structFields, hmap]
              · rfl

theorem parseTypeStep_full_congr (rec₁ rec₂ : Str → TypeInfo) (o u : Bool) (r clean : Str)
    (h : ∀ t, t.length < clean.length → rec₁ t = rec₂ t) :
    parseTypeStep rec₁ o u r clean = parseTypeStep rec₂ o u r clean := by
  have hs := parseTypeStep_congr rec₁ rec₂ o o u u r r clean h
  simp only [structFields, Prod.mk.injEq] at hs
  obtain ⟨hb, ha, hu, hi⟩ := hs
  have h1 := parseTypeStep_isOptional rec₁ o u r clean
  have h2 := parseTypeStep_isOptional rec₂ o u r clean
  have h3 := parseTypeStep_isNullable rec₁ o u r clean
  have h4 := parseTypeStep_isNullable rec₂ o u r clean
  have h5 := parseTypeStep_rawType rec₁ o u r clean
  have h6 := parseTypeStep_rawType rec₂ o u r clean
  ext : 1
  · exact hb
  · exact ha
  · exact hu
  · exact hi
  · exact h1.trans h2.symm
  · exact h3.trans h4.symm
  · exact h5.trans h6.symm

theorem parseTypeF_fuel (cap : Bool) (k : Nat) :
    ∀ (n m : Nat) (s : Str), s.length ≤ k → s.length < n → s.length < m →
      parseTypeF cap n s = parseTypeF cap m s := by
  induction k with
  | zero =>
    intro n m s hk hn hm
    match n, m with
    | n' + 1, m' + 1 =>
      have hs : s = [] := List.length_eq_zero.mp (Nat.le_zero.mp hk)
      subst hs
      simp [parseTypeF]
  | succ k ih =>
    intro n m s hk hn hm
    match n, m with
    | n' + 1, m' + 1 =>
      simp only [parseTypeF]
      by_cases hnil : (s = [] || !cap) = true
      · rw [if_pos hnil, if_pos hnil]
      · rw [if_neg hnil, if_neg hnil]
        apply parseTypeStep_full_congr
        intro t ht
        have htlen : t.length < s.length := ht.trans_le (cleanOf_length_le s)
        exact ih n' m' t (by omega) (by omega) (by omega)

theorem parseTypeF_rawType (cap : Bool) (n : Nat) (s : Str) :
    (parseTypeF cap n s).rawType = s := by
  cases n with
  | zero => rfl
  | succ n =>
    simp only [parseTypeF]
    split
    · rfl
    · exact parseTypeStep_rawType _ _ _ _ _

/-- First type argument of a descriptor, when present. -/
def argHead (t : TypeInfo) : Option TypeInfo := t.typeArguments.bind List.head?

/-- Number of type arguments of a descriptor, when present. -/
def argLen (t : TypeInfo) : Option Nat := t.typeArguments.map List.length

/-- C1: for every input type string `T` (and any parser configuration),
the type normalizer `parseType` returns a descriptor whose `rawType` field
equals `T` exactly, regardless of which structural branch (Promise, array,
generic, tuple, union, intersection, or fallback) matched. -/
theorem c1_rawType_lossless (cfg : ASTParserConfig) (s : Str) :
    (parseType cfg s).rawType = s :=
  parseTypeF_rawType cfg.captureComplexTypes (s.length + 1) s

/-- C5: normalizing `A<B<C>>` produces baseType `A` with exactly one type
argument, which is itself a generic descriptor with baseType `B` whose
single type argument has baseType `C`: depth-aware splitting keeps the
nested generic intact. -/
theorem c5_nested_generic :
    (parseType DEFAULT_AST_CONFIG (str "A<B<C>>")).baseType = str "A"
    ∧ argLen (parseType DEFAULT_AST_CONFIG (str "A<B<C>>")) = some 1
    ∧ (argHead (parseType DEFAULT_AST_CONFIG (str "A<B<C>>"))).map TypeInfo.baseType
        = some (str "B")
    ∧ ((argHead (parseType DEFAULT_AST_CONFIG (str "A<B<C>>"))).bind argLen) = some 1
    ∧ (((argHead (parseType DEFAULT_AST_CONFIG (str "A<B<C>>"))).bind argHead).map
        TypeInfo.baseType) = some (str "C") := by
  decide

/-- C6: the two array spellings are equivalent under normalization:
both `string[]` and `Array<string>` yield baseType `Array` with exactly
one type argument whose baseType is `string`. -/
theorem c6_array_spellings :
    (parseType DEFAULT_AST_CONFIG (str "string[]")).baseType = str "Array"
    ∧ argLen (parseType DEFAULT_AST_CONFIG (str "string[]")) = some 1
    ∧ (argHead (parseType DEFAULT_AST_CONFIG (str "string[]"))).map TypeInfo.baseType
        = some (str "string")
    ∧ (parseType DEFAULT_AST_CONFIG (str "Array<string>")).baseType = str "Array"
    ∧ argLen (parseType DEFAULT_AST_CONFIG (str "Array<string>")) = some 1
    ∧ (argHead (parseType DEFAULT_AST_CONFIG (str "Array<string>"))).map TypeInfo.baseType
        = some (str "string") := by
  decide

/-- C8 as stated is false: `number | undefined` (spaces around the bar, as
TypeScript union members are normally written) contains the `| undefined`
union member, yet the normalizer records `isOptional = false`, because the
code checks for the exact substring `|undefined` without a space. -/
theorem c8_counterexample :
    hasSub (str "| undefined") (str "number | undefined") = true
    ∧ (parseType DEFAULT_AST_CONFIG (str "number | undefined")).isOptional = false := by
  decide

/-- C8 (amended): the normalizer records `isOptional` as true exactly when
the string ends with `?` or contains the exact substring `|undefined` (no
space), records `isNullable` as true exactly when it contains the exact
substring `|null`, and the markers are stripped (first occurrence each,
then trim) before any further structural matching: the structural fields
of the result depend only on the cleaned text. -/
theorem c8_amended_flags_and_stripping (s : Str) :
    (parseType DEFAULT_AST_CONFIG s).isOptional
        = (endsWithChar '?' s || hasSub (str "|undefined") s)
    ∧ (parseType DEFAULT_AST_CONFIG s).isNullable = hasSub (str "|null") s
    ∧ ∀ s₂, cleanOf s = cleanOf s₂ →
        structFields (parseType DEFAULT_AST_CONFIG s)
          = structFields (parseType DEFAULT_AST_CONFIG s₂) := by
  refine ⟨?_, ?_, ?_⟩
  · by_cases hs : s = []
    · subst hs; decide
    · show (parseTypeF true (s.length + 1) s).isOptional = _
      simp only [parseTypeF]
      rw [if_neg (by simp [hs])]
      exact parseTypeStep_isOptional _ _ _ _ _
  · by_cases hs : s = []
    · subst hs; decide
    · show (parseTypeF true (s.length + 1) s).isNullable = _
      simp only [parseTypeF]
      rw [if_neg (by simp [hs])]
      exact parseTypeStep_isNullable _ _ _ _ _
  · intro s₂ hclean
    by_cases hs : s = [] <;> by_cases hs₂ : s₂ = []
    · subst hs; subst hs₂; rfl
    · subst hs
      have h2 : cleanOf s₂ = [] := hclean.symm.trans rfl
      show _ = structFields (parseTypeF true (s₂.length + 1) s₂)
      simp only [parseTypeF]
      rw [if_neg (by simp [hs₂]), h2]
      rfl
    · subst hs₂
      have h2 : cleanOf s = [] := hclean.trans rfl
      show structFields (parseTypeF true (s.length + 1) s) = _
      simp only [parseTypeF]
      rw [if_neg (by simp [hs]), h2]
      rfl
    · show structFields (parseTypeF true (s.length + 1) s)
          = structFields (parseTypeF true (s₂.length + 1) s₂)
      simp only [parseTypeF]
      rw [if_neg (by simp [hs]), if_neg (by simp [hs₂]), ← hclean]
      apply parseTypeStep_congr
      intro t ht
      have h1 : t.length < s.length := ht.trans_le (cleanOf_length_le s)
      have h2 : t.length < s₂.length := by
        have := cleanOf_length_le s₂
        rw [← hclean] at this
        exact ht.trans_le this
      exact parseTypeF_fuel true t.length _ _ t le_rfl h1 h2

/-- Witness for C8 (amended) at concrete inputs: `number?` is optional,
and `number?` and ` number` (equal after cleaning) get identical
structural fields. -/
theorem c8_amended_witness :
    (parseType DEFAULT_AST_CONFIG (str "number?")).isOptional = true
    ∧ structFields (parseType DEFAULT_AST_CONFIG (str "number?"))
        = structFields (parseType DEFAULT_AST_CONFIG (str " number")) := by
  refine ⟨(c8_amended_flags_and_stripping (str "number?")).1.trans (by decide), ?_⟩
  exact (c8_amended_flags_and_stripping (str "number?")).2.2 (str " number") (by decide)

/-- One tag of a parsed documentation block, as surfaced by the external
`comment-parser` library and consumed by the repo (tag kind, name, type
text, description). -/
structure RawTag where
  tag : Str
  name : Str
  type : Str
  description : Str
deriving DecidableEq

/-- One parsed comment block (`parsed[0]` in the source): a description
plus tags. -/
structure ParsedBlock where
  description : Str
  tags : List RawTag
deriving DecidableEq

/-- Outcome of running the external comment parser on one JSDoc text: the
call may throw, return a null/empty block array, or return blocks.  A
`null` return and an empty array are observationally identical in the
source (`!parsed || parsed.length === 0`), so both are `blocks []`. -/
inductive CommentParse where
  | throws
  | blocks (bs : List ParsedBlock)
deriving DecidableEq

/-- The result shape of `ModuleParser.parseJSDoc`. -/
structure JSDocData where
  description : Str
  tags : List RawTag
deriving DecidableEq

/-- The capture of the regex `\x7b([^\x7d]+)\x7d` (type in brace notation,
src/parse.ts:268,281): the leftmost opening brace followed by at least one
non-closing-brace character and then a closing brace. -/
def braceGroup (s : Str) : Option Str :=
  match s with
  | [] => none
  | c :: rest =>
    if c = '\x7b' then
      let run := rest.takeWhile (fun d => d ≠ '\x7d')
      if !run.isEmpty && !(rest.drop run.length).isEmpty then some run
      else braceGroup rest
    else braceGroup rest

/-- Tag post-processing of `ModuleParser.parseJSDoc` (src/parse.ts:265-298):
for `param`/`returns` tags with a type, extract the braced portion when
present (otherwise keep the tag's own type); `returns` drops the name. -/
def processTag (t : RawTag) : RawTag :=
  if t.tag = str "param" && !t.type.isEmpty then
    { tag := t.tag, name := t.name, type := (braceGroup t.type).getD t.type,
      description := t.description }
  else if t.tag = str "returns" && !t.type.isEmpty then
    { tag := t.tag, name := [], type := (braceGroup t.type).getD t.type,
      description := t.description }
  else
    { tag := t.tag, name := t.name, type := t.type, description := t.description }

/-- `ModuleParser.parseJSDoc` (src/parse.ts:235-307).  A node's attached
JSDoc blocks are modelled by the outcomes of running the external comment
parser on their texts (`jsDocs[0].getText()` is the only one consulted).
No blocks, a parser throw (caught), a null/empty parse, or a module-level
block all yield empty description and tags. -/
def parseJSDoc (jsDocs : List CommentParse) : JSDocData :=
  match jsDocs with
  | [] => ⟨[], []⟩
  | cp :: _ =>
    match cp with
    | CommentParse.throws => ⟨[], []⟩
    | CommentParse.blocks [] => ⟨[], []⟩
    | CommentParse.blocks (b :: _) =>
      if b.tags.any (fun t => t.tag = str "module") then ⟨[], []⟩
      else ⟨b.description, b.tags.map processTag⟩

/-- `ParamInfo` (src/types.ts:29-38). -/
structure ParamInfo where
  name : Str
  type : TypeInfo
  description : Str
  optional : Bool

/-- `ReturnInfo` (src/types.ts:43-48). -/
structure ReturnInfo where
  type : TypeInfo
  description : Str

/-- `MethodInfo`/`EnhancedMethodInfo` (src/types.ts:70-105); `methodKind`
and `visibility` are the source's string literals. -/
structure MethodInfo where
  name : Str
  params : List ParamInfo
  description : Str
  returns : Option ReturnInfo
  methodKind : Str
  isAsync : Bool
  visibility : Str

instance : Inhabited TypeInfo := ⟨⟨[], none, none, none, false, false, []⟩⟩

instance : Inhabited MethodInfo := ⟨⟨[], [], [], none, [], false, []⟩⟩

/-- JS `a.replace(/^_/, '')`: drop one leading underscore. -/
def dropLeadingUnderscore (s : Str) : Str :=
  match s with
  | '_' :: rest => rest
  | _ => s

/-- `ModuleParser.extractParams` (src/parse.ts:312-337): parameters come
from the `param` tags of the parsed doc comment; optionality from a
leading underscore in the documented name or a literal `(optional)` in the
description. -/
def extractParams (cfg : ASTParserConfig) (jsDoc : JSDocData) : List ParamInfo :=
  (jsDoc.tags.filter (fun t => t.tag = str "param")).map (fun tag =>
    { name := dropLeadingUnderscore tag.name
      type := parseType cfg tag.type
      description := tag.description
      optional := startsWithChar '_' tag.name || hasSub (str "(optional)") tag.description })

/-- `ModuleParser.extractReturns` (src/parse.ts:342-358): the first
`returns` tag with a nonempty type, if any. -/
def extractReturns (cfg : ASTParserConfig) (jsDoc : JSDocData) : Option ReturnInfo :=
  match jsDoc.tags.find? (fun t => t.tag = str "returns") with
  | none => none
  | some tag =>
    if tag.type.isEmpty then none
    else some ⟨parseType cfg tag.type, tag.description⟩

/-- `ModuleParser.createMethodInfo` (src/parse.ts:363-386). -/
def createMethodInfo (name : Str) (description : Str) (params : List ParamInfo)
    (returns : Option ReturnInfo) (methodKind : Str) (isAsync : Bool)
    (visibility : Str) : MethodInfo :=
  ⟨name, params, description, returns, methodKind, isAsync, visibility⟩

/-- The mutable `methods: Record<string, EnhancedMethodInfo>` object, as
an insertion-ordered association list: assignment to an existing key
replaces the value in place, a new key is appended. -/
abbrev Methods := List (Str × MethodInfo)

/-- JS object property assignment `methods[k] = v`. -/
def upsert (m : Methods) (k : Str) (v : MethodInfo) : Methods :=
  if m.any (fun p => p.1 = k) then
    m.map (fun p => if p.1 = k then (k, v) else p)
  else m ++ [(k, v)]

/-- JS object property read `methods[k]`. -/
def getM (m : Methods) (k : Str) : Option MethodInfo :=
  (m.find? (fun p => p.1 = k)).map (fun p => p.2)

/-- A declared (signature-level) parameter of a function-like node, as
`ts-morph` would report it: its name and its type-checker type text.  The
member classifier never consults these for functions, methods,
constructors or properties (documentation is authoritative); only the
setter branch of `processAccessor` reads them. -/
structure DeclParam where
  name : Str
  typeText : Str
deriving DecidableEq

/-- A `FunctionDeclaration` as queried by the source. -/
structure FunctionDeclNode where
  name : Str
  jsDocs : List CommentParse
  declaredParams : List DeclParam
  isAsync : Bool
  isExported : Bool

/-- A `VariableDeclaration` as queried by the source. -/
structure VariableDeclNode where
  name : Str
  initText : Option Str
  jsDocs : List CommentParse
  declaredParams : List DeclParam
  isExported : Bool

/-- A `MethodDeclaration` as queried by the source. -/
structure MethodDeclNode where
  name : Str
  jsDocs : List CommentParse
  declaredParams : List DeclParam
  isAsync : Bool
  isStatic : Bool
  hasPrivateModifier : Bool
  hasProtectedModifier : Bool

/-- A `PropertyDeclaration` as queried by the source. -/
structure PropertyDeclNode where
  name : Str
  jsDocs : List CommentParse
  declaredParams : List DeclParam
  initText : Option Str
  hasPrivateModifier : Bool
  hasProtectedModifier : Bool

/-- A `ConstructorDeclaration` as queried by the source. -/
structure CtorDeclNode where
  jsDocs : List CommentParse
  declaredParams : List DeclParam

/-- A `GetAccessorDeclaration`/`SetAccessorDeclaration` as queried by the
source; `params` models `getParameters()`. -/
structure AccessorDeclNode where
  name : Str
  jsDocs : List CommentParse
  params : List DeclParam
  hasPrivateModifier : Bool
  hasProtectedModifier : Bool

/-- A `ClassDeclaration` as queried by the source: `methodsList` models
`getMethods()` (instance and static); `getStaticMethods()` is its
`isStatic` filter. -/
structure ClassDeclNode where
  name : Str
  isExported : Bool
  ctors : List CtorDeclNode
  methodsList : List MethodDeclNode
  props : List PropertyDeclNode
  getters : List AccessorDeclNode
  setters : List AccessorDeclNode

/-- JS falsy-or on strings: `a || b`. -/
def strOr (a b : Str) : Str := if a.isEmpty then b else a

/-- The name resolution `namePrefix || declaredName` shared by
`processFunctionDeclaration` and `processVariableDeclaration`. -/
def resolveName (pre : Option Str) (n : Str) : Str :=
  match pre with
  | some p => strOr p n
  | none => n

/-- The repeated visibility determination from modifiers
(src/parse.ts:487-493 etc.): default public, `private` modifier sets
private, `protected` modifier wins over both. -/
def modifierVisibility (hasPriv hasProt : Bool) : Str :=
  let v := if hasPriv then str "private" else str "public"
  if hasProt then str "protected" else v

/-- `ModuleParser.processFunctionDeclaration` (src/parse.ts:391-413). -/
def processFunctionDeclaration (cfg : ASTParserConfig) (decl : FunctionDeclNode)
    (pre : Option Str) (methods : Methods) : Methods :=
  let name := resolveName pre decl.name
  let jsDoc := parseJSDoc decl.jsDocs
  let params := extractParams cfg jsDoc
  let returns := extractReturns cfg jsDoc
  -- visibility is the source's default argument 'public'
  upsert methods name
    (createMethodInfo name jsDoc.description params returns (str "function")
      decl.isAsync (str "public"))

/-- `ModuleParser.processVariableDeclaration` (src/parse.ts:418-453): only
variables initialized with an arrow function or function expression are
recorded; async-ness is the textual `async` head of the initializer. -/
def processVariableDeclaration (cfg : ASTParserConfig) (decl : VariableDeclNode)
    (pre : Option Str) (methods : Methods) : Methods :=
  let name := resolveName pre decl.name
  match decl.initText with
  | none => methods
  | some text =>
    if !hasSub (str "=>") text && !(str "function").isPrefixOf text
        && !(str "async function").isPrefixOf text then
      methods
    else
      let jsDoc := parseJSDoc decl.jsDocs
      let params := extractParams cfg jsDoc
      let returns := extractReturns cfg jsDoc
      let isAsync := (str "async").isPrefixOf text
      upsert methods name
        (createMethodInfo name jsDoc.description params returns (str "function")
          isAsync (str "public"))

/-- `ModuleParser.processMethod` (src/parse.ts:548-571). -/
def processMethod (cfg : ASTParserConfig) (method : MethodDeclNode) (className : Str)
    (methods : Methods) (methodKind : Str) (visibility : Str) : Methods :=
  let fullName := className ++ str "." ++ method.name
  let jsDoc := parseJSDoc method.jsDocs
  let params := extractParams cfg jsDoc
  let returns := extractReturns cfg jsDoc
  upsert methods fullName
    (createMethodInfo fullName jsDoc.description params returns methodKind
      method.isAsync visibility)

/-- `ModuleParser.processPropertyMethod` (src/parse.ts:576-607). -/
def processPropertyMethod (cfg : ASTParserConfig) (property : PropertyDeclNode)
    (className : Str) (methods : Methods) : Methods :=
  let fullName := className ++ str "." ++ property.name
  let jsDoc := parseJSDoc property.jsDocs
  let params := extractParams cfg jsDoc
  let returns := extractReturns cfg jsDoc
  let isAsync := match property.initText with
    | some t => (str "async").isPrefixOf t
    | none => false
  let visibility := modifierVisibility property.hasPrivateModifier property.hasProtectedModifier
  upsert methods fullName
    (createMethodInfo fullName jsDoc.description params returns (str "property")
      isAsync visibility)

/-- `ModuleParser.processAccessor` (src/parse.ts:612-669): for setters the
single recorded parameter comes from the first declared parameter (name
defaulting to `value`, type from the type checker), only its description
from the doc comment; getters take returns from the doc comment; setters
never record returns. -/
def processAccessor (cfg : ASTParserConfig) (accessor : AccessorDeclNode)
    (className : Str) (methods : Methods) (methodKind : Str) : Methods :=
  let fullName := className ++ str "." ++ accessor.name
  let jsDoc := parseJSDoc accessor.jsDocs
  let params : List ParamInfo :=
    if methodKind = str "setter" then
      match accessor.params with
      | [] => []
      | p :: _ =>
        let paramName := strOr p.name (str "value")
        let paramDescription :=
          ((jsDoc.tags.find? (fun t => t.tag = str "param" && t.name = paramName)).map
            (fun t => t.description)).getD []
        [⟨paramName, parseType cfg p.typeText, paramDescription, false⟩]
    else []
  let returns := if methodKind = str "getter" then extractReturns cfg jsDoc else none
  let visibility := modifierVisibility accessor.hasPrivateModifier accessor.hasProtectedModifier
  upsert methods fullName
    (createMethodInfo fullName jsDoc.description params returns methodKind false visibility)

/-- The constructor block of `ModuleParser.processClassDeclaration`
(src/parse.ts:463-478): only the first declared constructor is recorded,
keyed `<ClassName>.constructor`, with `returns` passed as `null`. -/
def processConstructors (cfg : ASTParserConfig) (decl : ClassDeclNode) (className : Str)
    (methods : Methods) : Methods :=
  match decl.ctors with
  | [] => methods
  | ctor :: _ =>
    let jsDoc := parseJSDoc ctor.jsDocs
    let params := extractParams cfg jsDoc
    upsert methods (className ++ str ".constructor")
      (createMethodInfo (className ++ str ".constructor") jsDoc.description params
        none (str "constructor") false (str "public"))

/-- Instance-method loop of `processClassDeclaration` (src/parse.ts:481-497):
methods that are not static, with visibility from modifiers. -/
def classInstancePhase (cfg : ASTParserConfig) (decl : ClassDeclNode) (className : Str)
    (m : Methods) : Methods :=
  if cfg.captureInstanceMethods then
    decl.methodsList.foldl (fun acc method =>
      if method.isStatic then acc
      else processMethod cfg method className acc (str "instance")
        (modifierVisibility method.hasPrivateModifier method.hasProtectedModifier)) m
  else m

/-- Static-method loop of `processClassDeclaration` (src/parse.ts:500-513):
`getStaticMethods()` is the static filter of the method list. -/
def classStaticPhase (cfg : ASTParserConfig) (decl : ClassDeclNode) (className : Str)
    (m : Methods) : Methods :=
  if cfg.captureStaticMethods then
    (decl.methodsList.filter (fun md => md.isStatic)).foldl (fun acc method =>
      processMethod cfg method className acc (str "static")
        (modifierVisibility method.hasPrivateModifier method.hasProtectedModifier)) m
  else m

/-- Property-method loop of `processClassDeclaration` (src/parse.ts:516-528):
only properties with a function-looking initializer. -/
def classPropertyPhase (cfg : ASTParserConfig) (decl : ClassDeclNode) (className : Str)
    (m : Methods) : Methods :=
  if cfg.capturePropertyMethods then
    decl.props.foldl (fun acc property =>
      match property.initText with
      | none => acc
      | some text =>
        if hasSub (str "=>") text || hasSub (str "function") text then
          processPropertyMethod cfg property className acc
        else acc) m
  else m

/-- Getter loop of `processClassDeclaration` (src/parse.ts:531-535). -/
def classGetterPhase (cfg : ASTParserConfig) (decl : ClassDeclNode) (className : Str)
    (m : Methods) : Methods :=
  if cfg.captureGetAccessors then
    decl.getters.foldl (fun acc g => processAccessor cfg g className acc (str "getter")) m
  else m

/-- Setter loop of `processClassDeclaration` (src/parse.ts:538-542). -/
def classSetterPhase (cfg : ASTParserConfig) (decl : ClassDeclNode) (className : Str)
    (m : Methods) : Methods :=
  if cfg.captureSetAccessors then
    decl.setters.foldl (fun acc st => processAccessor cfg st className acc (str "setter")) m
  else m

/-- `ModuleParser.processClassDeclaration` (src/parse.ts:458-543): the
constructor block, then the five config-gated member loops in source
order. -/
def processClassDeclaration (cfg : ASTParserConfig) (decl : ClassDeclNode)
    (className : Str) (methods : Methods) : Methods :=
  classSetterPhase cfg decl className
    (classGetterPhase cfg decl className
      (classPropertyPhase cfg decl className
        (classStaticPhase cfg decl className
          (classInstancePhase cfg decl className
            (processConstructors cfg decl className methods)))))

/-- A `VariableStatement` inside a namespace body, with its variable
declarations (src/parse.ts:736-763). -/
structure VarStmtNode where
  isExported : Bool
  decls : List VariableDeclNode

/-- A `ModuleDeclaration` (namespace) as queried by the source
(src/parse.ts:674-791): export flag and name from descendant queries, the
body's declaration lists from `getDescendantsOfKind` on the module block
(`hasBody = false` models a missing `ModuleBlock`, which aborts the
namespace), and nested namespaces. -/
inductive NsTree where
  | node (name : Str) (isExported : Bool) (hasBody : Bool)
      (funcs : List FunctionDeclNode) (classes : List ClassDeclNode)
      (varStmts : List VarStmtNode) (nested : List NsTree)

/-- Namespace name (first identifier descendant). -/
def NsTree.name : NsTree → Str
  | .node n _ _ _ _ _ _ => n

/-- Namespace export flag (export-keyword descendant present). -/
def NsTree.isExported : NsTree → Bool
  | .node _ e _ _ _ _ _ => e

mutual

/-- `ModuleParser.processNamespaceDeclaration` (src/parse.ts:674-791):
exported functions, classes and variable statements of the body are
classified with the dotted prefix; nested exported namespaces recurse with
an accumulated prefix. -/
def processNs (cfg : ASTParserConfig) (nsName : Str) (t : NsTree) (m : Methods) : Methods :=
  match t with
  | NsTree.node _ _ hasBody funcs classes varStmts nested =>
    if !hasBody then m
    else
      let m1 := funcs.foldl (fun acc f =>
        if f.isExported then
          processFunctionDeclaration cfg f (some (nsName ++ str "." ++ f.name)) acc
        else acc) m
      let m2 := classes.foldl (fun acc c =>
        if c.isExported then processClassDeclaration cfg c (nsName ++ str "." ++ c.name) acc
        else acc) m1
      let m3 := varStmts.foldl (fun acc vs =>
        if vs.isExported then
          vs.decls.foldl (fun a d =>
            processVariableDeclaration cfg d (some (nsName ++ str "." ++ d.name)) a) acc
        else acc) m2
      processNsList cfg nsName nested m3

/-- The nested-namespace loop of `processNamespaceDeclaration`
(src/parse.ts:766-791). -/
def processNsList (cfg : ASTParserConfig) (nsName : Str) (ts : List NsTree)
    (m : Methods) : Methods :=
  match ts with
  | [] => m
  | t :: rest =>
    let m' := if t.isExported then processNs cfg (nsName ++ str "." ++ t.name) t m else m
    processNsList cfg nsName rest m'

end

/-- An `ImportDeclaration` as queried by `extractImports`. -/
structure ImportDeclNode where
  moduleSpecifier : Str
  defaultImportText : Str
  namespaceImportText : Str
  namedImports : List Str

/-- `ImportInfo` (src/types.ts:110-119). -/
structure ImportInfo where
  moduleName : Str
  isDefault : Bool
  isNamespace : Bool
  namedImports : List Str
deriving DecidableEq

/-- An `ExportDeclaration` as queried by `extractExports`. -/
structure ExportDeclNode where
  moduleSpecifier : Option Str
  namedExports : List Str
  hasDefaultKeyword : Bool

/-- An `ExportAssignment` as queried by `extractExports`. -/
structure ExportAssignNode where
  isExportEquals : Bool
  expressionText : Str

/-- `ExportInfo` (src/types.ts:124-133). -/
structure ExportInfo where
  name : Str
  isDefault : Bool
  isReexport : Bool
  sourceModule : Option Str
deriving DecidableEq

/-- JS `x || undefined` on an optional string (empty string is falsy). -/
def truthyOpt (o : Option Str) : Option Str :=
  match o with
  | some s => if s.isEmpty then none else some s
  | none => none

/-- `ModuleParser.extractImports` (src/parse.ts:932-953). -/
def extractImports (imps : List ImportDeclNode) : List ImportInfo :=
  imps.map (fun d =>
    ⟨d.moduleSpecifier, !d.defaultImportText.isEmpty, !d.namespaceImportText.isEmpty,
      d.namedImports⟩)

/-- `ModuleParser.extractExports` (src/parse.ts:958-1019): named exports
and default re-export markers from export declarations, then export
assignments, then the exported-declarations map keys. -/
def extractExports (decls : List ExportDeclNode) (assigns : List ExportAssignNode)
    (exportedNames : List Str) : List ExportInfo :=
  let fromDecls := decls.foldl (fun acc d =>
    let isReexport := !(truthyOpt d.moduleSpecifier).isNone
    if !d.namedExports.isEmpty then
      acc ++ d.namedExports.map (fun n =>
        (⟨n, false, isReexport, truthyOpt d.moduleSpecifier⟩ : ExportInfo))
    else if d.hasDefaultKeyword then
      acc ++ [(⟨str "default", true, isReexport, truthyOpt d.moduleSpecifier⟩ : ExportInfo)]
    else acc) []
  let fromAssigns := assigns.map (fun a =>
    (⟨a.expressionText, !a.isExportEquals, false, none⟩ : ExportInfo))
  let fromExported := exportedNames.map (fun k =>
    (⟨k, k == str "default", false, none⟩ : ExportInfo))
  fromDecls ++ fromAssigns ++ fromExported

/-- `ModuleInfo` (src/types.ts:138-149). -/
structure ModuleInfo where
  name : Str
  description : Str
  fileName : Str
  imports : List ImportInfo
  exports : List ExportInfo
deriving DecidableEq

/-- The queried shape of a parsed source file: the result of the external
`ts-morph` parse of the file content, i.e. everything `parseSourceFile`
and `extractModuleInfo` ask the toolkit for. -/
structure SFBody where
  funcs : List FunctionDeclNode
  classes : List ClassDeclNode
  varDecls : List VariableDeclNode
  namespaces : List NsTree
  topJsDocs : List CommentParse
  importDecls : List ImportDeclNode
  exportDecls : List ExportDeclNode
  exportAssigns : List ExportAssignNode
  exportedDeclNames : List Str

/-- A source file in the project: its base name plus the parsed body. -/
structure SourceFileModel where
  baseName : Str
  body : SFBody

/-- JS `fileName.replace(/\.(ts|js|tsx|jsx)$/, '')`. -/
def stripExt (s : Str) : Str :=
  if (str ".ts").isSuffixOf s then dropLastN 3 s
  else if (str ".js").isSuffixOf s then dropLastN 3 s
  else if (str ".tsx").isSuffixOf s then dropLastN 4 s
  else if (str ".jsx").isSuffixOf s then dropLastN 4 s
  else s

/-- Loop body of `extractModuleInfo`'s JSDoc scan (src/parse.ts:891-915):
a block that throws or parses to nothing changes nothing (the catch is a
no-op); a parsed block always overrides the description, and its `module`
tag with a nonempty name overrides the name. -/
def moduleInfoStep (nd : Str × Str) (cp : CommentParse) : Str × Str :=
  match cp with
  | CommentParse.throws => nd
  | CommentParse.blocks [] => nd
  | CommentParse.blocks (b :: _) =>
    let n' := match b.tags.find? (fun t => t.tag = str "module") with
      | some t => if !t.name.isEmpty then t.name else nd.1
      | none => nd.1
    (n', b.description)

/-- `ModuleParser.extractModuleInfo` (src/parse.ts:884-927): `fileName` is
the source file's base name, the default module name strips its extension;
each top-level JSDoc child that parses overrides the description, and its
`module` tag (with a nonempty name) overrides the name. -/
def extractModuleInfo (sf : SourceFileModel) : ModuleInfo :=
  let fileName := sf.baseName
  let nd := sf.body.topJsDocs.foldl moduleInfoStep (stripExt fileName, ([] : Str))
  ⟨nd.1, nd.2, fileName, extractImports sf.body.importDecls,
    extractExports sf.body.exportDecls sf.body.exportAssigns sf.body.exportedDeclNames⟩

/-- `ParsedModuleResult` (src/types.ts:154-159). -/
structure ParsedModuleResult where
  methods : Methods
  module : ModuleInfo

/-- `ModuleParser.parseSourceFile` (src/parse.ts:819-879): exported
functions, classes, variable declarations, then exported namespaces, each
category in order; finally the module metadata. -/
def parseSourceFile (cfg : ASTParserConfig) (sf : SourceFileModel) : ParsedModuleResult :=
  let m1 := sf.body.funcs.foldl (fun acc f =>
    if f.isExported then processFunctionDeclaration cfg f none acc else acc) []
  let m2 := sf.body.classes.foldl (fun acc c =>
    if c.isExported then processClassDeclaration cfg c c.name acc else acc) m1
  let m3 := sf.body.varDecls.foldl (fun acc d =>
    if d.isExported then processVariableDeclaration cfg d none acc else acc) m2
  let m4 := sf.body.namespaces.foldl (fun acc t =>
    if t.isExported then processNs cfg t.name t acc else acc) m3
  ⟨m4, extractModuleInfo sf⟩

/-- `@std/path` `isAbsolute`, POSIX. -/
def isAbsolutePath (p : Str) : Bool := startsWithChar '/' p

/-- `@std/path` `join`, POSIX. -/
def joinPath (a b : Str) : Str := a ++ str "/" ++ b

/-- The path resolution of `ModuleParser.parse` (src/parse.ts:799-802). -/
def resolvePath (cwd p : Str) : Str := if isAbsolutePath p then p else joinPath cwd p

/-- The content-to-result part of `ModuleParser.parse`
(src/parse.ts:805-810): the content is materialized in the parser's fresh
project under the fixed name `temp.ts` and walked.  `ast` models the
external `ts-morph` parse of the text. -/
def parseModuleContent (ast : Str → SFBody) (cfg : ASTParserConfig)
    (content : Str) : ParsedModuleResult :=
  parseSourceFile cfg ⟨str "temp.ts", ast content⟩

/-- `ModuleParser.parse` (src/parse.ts:796-814) for a freshly constructed
parser (as `generateModuleSpecification` and `parseModule` construct one
per call): resolve the path against the working directory, read the file
(`none` models the read throwing, which propagates), then parse the
content. -/
def parseFromFile (ast : Str → SFBody) (cfg : ASTParserConfig) (cwd : Str)
    (filePath : Str) (fs : Str → Option Str) : Option ParsedModuleResult :=
  (fs (resolvePath cwd filePath)).map (fun content => parseModuleContent ast cfg content)

/-- Parsed command-line flags, as returned by the external `@std/cli`
`parseArgs` call of `main` (src/main.ts:345-350): the help flag, the
positional list `_`, and the set of named keys present on the flags object
(consulted by `getMissingParams`'s `in` checks). -/
structure Flags where
  help : Bool
  positional : List Str
  keys : List Str

/-- `ModuleSpec` as `parseModule` (src/main.ts:129-142) hands it to the
dispatch: the dispatch consults only the `methods` map; the simplified
module metadata is presentation-only. -/
structure ModuleSpecM where
  methods : Methods

/-- JS `name.charAt(0)` as a string (empty for the empty string). -/
def firstCharStr (s : Str) : Str := s.take 1

/-- `getMissingParams` (src/main.ts:321-331): required documented
parameters present neither under their full name nor under their
first-character shorthand. -/
def getMissingParams (methodInfo : MethodInfo) (keys : List Str) : List Str :=
  (methodInfo.params.filter (fun p =>
    !p.optional && !(keys.contains p.name) && !(keys.contains (firstCharStr p.name)))).map
    (fun p => p.name)

/-- Observable steps of the invocation CLI's `main` (src/main.ts:339-435),
in execution order. -/
inductive Ev where
  | runGenerate
  | printMenu
  | parseModule (path : Str)
  | printMenuForModule
  | errorMethodNotFound (n : Str)
  | errorNotPublic (n : Str)
  | errorMissingParams (ps : List Str)
  | importModule (path : Str)
  | execFunction (n : Str)
  | execInstance (n : Str)
  | execStatic (n : Str)
  | errorUnsupportedKind (k : Str)
deriving DecidableEq

/-- Event trace of `main` (src/main.ts:339-435).  `args0` is `Deno.args`
(only its head is consulted here; `flags` is the external parse of the
same arguments), `specResult` the outcome of `parseModule` (`none` when
parsing failed: an error was printed inside `parseModule` and `main`
returns), and `importOk` the outcome of the dynamic import.  What happens
inside a dispatched execution (result printing, caught call errors) is
beyond the modelled boundary: dispatch is one `exec` event. -/
def mainTrace (args0 : List Str) (flags : Flags) (specResult : Option ModuleSpecM)
    (importOk : Bool) : List Ev :=
  if args0.head? = some (str "generate") then [Ev.runGenerate]
  else if flags.help || flags.positional.length < 1 then [Ev.printMenu]
  else
    let modulePath := flags.positional.headD []
    Ev.parseModule modulePath ::
    match specResult with
    | none => []
    | some spec =>
      match flags.positional[1]? with
      | none => [Ev.printMenuForModule]
      | some methodName =>
        match getM spec.methods methodName with
        | none => [Ev.errorMethodNotFound methodName, Ev.printMenuForModule]
        | some methodInfo =>
          if methodInfo.visibility ≠ str "public" then [Ev.errorNotPublic methodName]
          else
            let missing := getMissingParams methodInfo flags.keys
            if missing ≠ [] then [Ev.errorMissingParams missing]
            else
              Ev.importModule modulePath ::
              if !importOk then []
              else if methodInfo.methodKind = str "function" then [Ev.execFunction methodName]
              else if methodInfo.methodKind = str "instance" then [Ev.execInstance methodName]
              else if methodInfo.methodKind = str "static" then [Ev.execStatic methodName]
              else [Ev.errorUnsupportedKind methodInfo.methodKind]

/-- Name-override part of the module-info JSDoc scan, in isolation: the
last nonempty `module`-tag name among the successfully parsed top-level
blocks, if any. -/
def declNameStep (acc : Option Str) (cp : CommentParse) : Option Str :=
  match cp with
  | CommentParse.throws => acc
  | CommentParse.blocks [] => acc
  | CommentParse.blocks (b :: _) =>
    match b.tags.find? (fun t => t.tag = str "module") with
    | some t => if !t.name.isEmpty then some t.name else acc
    | none => acc

/-- The explicitly declared module name of a file's top-level doc blocks. -/
def declaredModuleName (docs : List CommentParse) : Option Str :=
  docs.foldl declNameStep none

theorem declFold_acc (rest : List CommentParse) (acc : Option Str) :
    rest.foldl declNameStep acc
      = match rest.foldl declNameStep none with
        | some v => some v
        | none => acc := by
  induction rest generalizing acc with
  | nil => simp
  | cons cp rest ih =>
    simp only [List.foldl_cons]
    rw [ih (declNameStep acc cp), ih (declNameStep none cp)]
    cases hfold : rest.foldl declNameStep none with
    | some v => rfl
    | none =>
      cases cp with
      | throws => rfl
      | blocks bs =>
        cases bs with
        | nil => rfl
        | cons b tb =>
          simp only [declNameStep]
          split
          · split
            · rfl
            · rfl
          · rfl

theorem moduleName_fold (docs : List CommentParse) (nd : Str × Str) :
    (docs.foldl moduleInfoStep nd).1 = (docs.foldl declNameStep none).getD nd.1 := by
  induction docs generalizing nd with
  | nil => simp
  | cons cp rest ih =>
    simp only [List.foldl_cons]
    rw [ih (moduleInfoStep nd cp), declFold_acc rest (declNameStep none cp)]
    cases hfold : rest.foldl declNameStep none with
    | some v => simp
    | none =>
      simp only [Option.getD]
      cases cp with
      | throws => rfl
      | blocks bs =>
        cases bs with
        | nil => rfl
        | cons b tb =>
          simp only [moduleInfoStep, declNameStep]
          split
          · split
            · rfl
            · rfl
          · rfl

/-- The empty parsed body (a source file with no declarations at all). -/
def emptyBody : SFBody := ⟨[], [], [], [], [], [], [], [], []⟩

/-- C3 is refuted: parsing an input file named `mymodule.ts` yields a
module descriptor whose `fileName` is the fixed in-project name `temp.ts`
and whose default name is `temp` — not the input file's base name — since
`parse` always materializes the content under `temp.ts`
(src/parse.ts:808); the repo's own golden test outputs record exactly
this (`Name: temp`, `File: temp.ts`). -/
theorem c3_counterexample :
    ((parseFromFile (fun _ => emptyBody) DEFAULT_AST_CONFIG (str "/w") (str "mymodule.ts")
        (fun q => if q = str "/w/mymodule.ts" then some (str "") else none)).map
      (fun r => (r.module.fileName, r.module.name)))
      = some (str "temp.ts", str "temp")
    ∧ str "temp.ts" ≠ str "mymodule.ts" ∧ str "temp" ≠ str "mymodule" := by
  decide

/-- C3 (amended): for every parsed module the descriptor's `fileName` is
the fixed in-project file name `temp.ts` (regardless of the input path),
and its name defaults to `temp` (that name with the extension stripped)
unless a module-level documentation tag declares an explicit nonempty
name, in which case the last such name overrides the default. -/
theorem c3_amended_module_name (ast : Str → SFBody) (cfg : ASTParserConfig) (c : Str) :
    (parseModuleContent ast cfg c).module.fileName = str "temp.ts"
    ∧ (parseModuleContent ast cfg c).module.name
        = (declaredModuleName (ast c).topJsDocs).getD (str "temp") := by
  constructor
  · rfl
  · show ((ast c).topJsDocs.foldl moduleInfoStep (stripExt (str "temp.ts"), ([] : Str))).1
        = (declaredModuleName (ast c).topJsDocs).getD (str "temp")
    rw [moduleName_fold]
    rfl

/-- C4: parsing is deterministic and depends only on the file content:
two parse runs (possibly from different working directories, paths and
ambient filesystems) that read the same unchanged content produce
structurally identical `ModuleSpecification` results. -/
theorem c4_parse_deterministic (ast : Str → SFBody) (cfg : ASTParserConfig)
    (cwd₁ cwd₂ p₁ p₂ : Str) (fs₁ fs₂ : Str → Option Str) (c : Str)
    (h₁ : fs₁ (resolvePath cwd₁ p₁) = some c)
    (h₂ : fs₂ (resolvePath cwd₂ p₂) = some c) :
    parseFromFile ast cfg cwd₁ p₁ fs₁ = parseFromFile ast cfg cwd₂ p₂ fs₂ := by
  unfold parseFromFile
  rw [h₁, h₂]

/-- Witness for C4: a relative-path run and an absolute-path run over the
same stored content produce the same result. -/
theorem c4_witness :
    parseFromFile (fun _ => emptyBody) DEFAULT_AST_CONFIG (str "/w") (str "m.ts")
        (fun q => if q = str "/w/m.ts" then some (str "x") else none)
      = parseFromFile (fun _ => emptyBody) DEFAULT_AST_CONFIG (str "/other") (str "/w/m.ts")
        (fun q => if q = str "/w/m.ts" then some (str "x") else none) :=
  c4_parse_deterministic (fun _ => emptyBody) DEFAULT_AST_CONFIG
    (str "/w") (str "/other") (str "m.ts") (str "/w/m.ts") _ _ (str "x") rfl rfl

/-- C10: the invocation CLI never executes a method whose descriptor's
visibility is `private` or `protected`: whenever the method named on the
command line resolves to a non-public descriptor, `main` reports that the
method is not public and returns immediately after — before the target
module is imported and before any function is executed. -/
theorem c10_private_never_executed (args0 : List Str) (flags : Flags)
    (spec : ModuleSpecM) (importOk : Bool) (mpath mname : Str) (rest : List Str)
    (mi : MethodInfo)
    (hgen : args0.head? ≠ some (str "generate"))
    (hhelp : flags.help = false)
    (hpos : flags.positional = mpath :: mname :: rest)
    (hfound : getM spec.methods mname = some mi)
    (hvis : mi.visibility ≠ str "public") :
    mainTrace args0 flags (some spec) importOk
      = [Ev.parseModule mpath, Ev.errorNotPublic mname]
    ∧ ∀ e ∈ mainTrace args0 flags (some spec) importOk,
        (∀ p, e ≠ Ev.importModule p) ∧ (∀ n, e ≠ Ev.execFunction n)
        ∧ (∀ n, e ≠ Ev.execInstance n) ∧ (∀ n, e ≠ Ev.execStatic n) := by
  have htrace : mainTrace args0 flags (some spec) importOk
      = [Ev.parseModule mpath, Ev.errorNotPublic mname] := by
    have h1 : (mpath :: mname :: rest)[1]? = some mname := by simp
    unfold mainTrace
    rw [if_neg hgen, if_neg (by simp [hhelp, hpos]), hpos]
    simp only [List.headD_cons, h1, hfound]
    rw [if_pos hvis]
  refine ⟨htrace, ?_⟩
  rw [htrace]
  intro e he
  rcases List.mem_cons.mp he with rfl | he2
  · exact ⟨fun p h => Ev.noConfusion h, fun n h => Ev.noConfusion h,
      fun n h => Ev.noConfusion h, fun n h => Ev.noConfusion h⟩
  · rcases List.mem_singleton.mp he2 with rfl
    exact ⟨fun p h => Ev.noConfusion h, fun n h => Ev.noConfusion h,
      fun n h => Ev.noConfusion h, fun n h => Ev.noConfusion h⟩

/-- A private instance-method descriptor used to witness C10. -/
def c10mi : MethodInfo :=
  ⟨str "C.f", [], [], none, str "instance", false, str "private"⟩

/-- Witness for C10: invoking `C.f` (private) on the command line yields
exactly a parse step and the not-public report. -/
theorem c10_witness :
    mainTrace [] ⟨false, [str "m.ts", str "C.f"], []⟩ (some ⟨[(str "C.f", c10mi)]⟩) true
      = [Ev.parseModule (str "m.ts"), Ev.errorNotPublic (str "C.f")] :=
  (c10_private_never_executed [] ⟨false, [str "m.ts", str "C.f"], []⟩
    ⟨[(str "C.f", c10mi)]⟩ true (str "m.ts") (str "C.f") [] c10mi
    (by decide) rfl rfl rfl (by decide)).1

theorem find_key_map_ne (m : Methods) (k k' : Str) (v : MethodInfo) (h : k' ≠ k) :
    (m.map (fun q => if q.1 = k then (k, v) else q)).find? (fun q => q.1 = k')
      = m.find? (fun q => q.1 = k') := by
  induction m with
  | nil => rfl
  | cons p rest ih =>
    by_cases hp : p.1 = k
    · by_cases hp' : p.1 = k'
      · exact absurd (hp'.symm.trans hp) h
      · simp only [List.map_cons, if_pos hp]
        rw [List.find?_cons_of_neg _ (by simp [Ne.symm h]),
          List.find?_cons_of_neg _ (by simp [hp'])]
        exact ih
    · simp only [List.map_cons, if_neg hp]
      by_cases hp' : p.1 = k'
      · rw [List.find?_cons_of_pos _ (by simp [hp']), List.find?_cons_of_pos _ (by simp [hp'])]
      · rw [List.find?_cons_of_neg _ (by simp [hp']), List.find?_cons_of_neg _ (by simp [hp'])]
        exact ih

theorem find_key_map_self (m : Methods) (k : Str) (v : MethodInfo)
    (hany : m.any (fun q => q.1 = k) = true) :
    (m.map (fun q => if q.1 = k then (k, v) else q)).find? (fun q => q.1 = k)
      = some (k, v) := by
  induction m with
  | nil => simp at hany
  | cons p rest ih =>
    by_cases hp : p.1 = k
    · simp only [List.map_cons, if_pos hp]
      rw [List.find?_cons_of_pos _ (by simp)]
    · simp only [List.map_cons, if_neg hp]
      rw [List.find?_cons_of_neg _ (by simp [hp])]
      apply ih
      simpa [List.any_cons, hp] using hany

theorem find_append_right (m : Methods) (k : Str) (v : MethodInfo)
    (hnone : m.find? (fun q => q.1 = k) = none) :
    (m ++ [(k, v)]).find? (fun q => q.1 = k) = some (k, v) := by
  induction m with
  | nil => rw [List.nil_append, List.find?_cons_of_pos _ (by simp)]
  | cons p rest ih =>
    by_cases hp : p.1 = k
    · rw [List.find?_cons_of_pos _ (by simp [hp])] at hnone
      exact Option.noConfusion hnone
    · rw [List.find?_cons_of_neg _ (by simp [hp])] at hnone
      rw [List.cons_append, List.find?_cons_of_neg _ (by simp [hp])]
      exact ih hnone

theorem find_append_single_skip (m : Methods) (x : Str × MethodInfo)
    (pfn : Str × MethodInfo → Bool) (hx : pfn x = false) :
    (m ++ [x]).find? pfn = m.find? pfn := by
  induction m with
  | nil => simp [List.find?, hx]
  | cons p rest ih =>
    by_cases hp : pfn p = true
    · rw [List.cons_append, List.find?_cons_of_pos _ hp, List.find?_cons_of_pos _ hp]
    · rw [List.cons_append,
        List.find?_cons_of_neg _ (by simpa using hp),
        List.find?_cons_of_neg _ (by simpa using hp)]
      exact ih

theorem getM_upsert (m : Methods) (k : Str) (v : MethodInfo) :
    getM (upsert m k v) k = some v := by
  unfold upsert getM
  split
  · rename_i hany
    rw [find_key_map_self m k v hany]
    rfl
  · rename_i hany
    have hnone : m.find? (fun q => decide (q.1 = k)) = none := by
      rw [List.find?_eq_none]
      intro x hx
      simp only [Bool.not_eq_true, decide_eq_false_iff_not]
      intro hxk
      exact hany (List.any_eq_true.mpr ⟨x, hx, by simp [hxk]⟩)
    rw [find_append_right m k v hnone]
    rfl

theorem getM_upsert_ne (m : Methods) (k k' : Str) (v : MethodInfo) (h : k' ≠ k) :
    getM (upsert m k v) k' = getM m k' := by
  unfold upsert getM
  split
  · rw [find_key_map_ne m k k' v h]
  · rw [find_append_single_skip m (k, v) _ (by simp [Ne.symm h])]

theorem filter_key_map (m : Methods) (k : Str) (v : MethodInfo)
    (pfn : Str × MethodInfo → Bool) (hv : pfn (k, v) = false)
    (hm : ∀ y ∈ m, y.1 = k → pfn y = false) :
    (m.map (fun q => if q.1 = k then (k, v) else q)).filter pfn = m.filter pfn := by
  induction m with
  | nil => rfl
  | cons p rest ih =>
    simp only [List.map_cons, List.filter_cons]
    by_cases hp : p.1 = k
    · rw [if_pos hp, hv, hm p (List.mem_cons_self p rest) hp]
      exact ih (fun y hy hk => hm y (List.mem_cons_of_mem p hy) hk)
    · rw [if_neg hp]
      cases hpp : pfn p
      · simp only [Bool.false_eq_true, if_false]
        exact ih (fun y hy hk => hm y (List.mem_cons_of_mem p hy) hk)
      · simp only [if_true]
        exact congrArg (p :: ·) (ih (fun y hy hk => hm y (List.mem_cons_of_mem p hy) hk))

theorem filter_upsert (m : Methods) (k : Str) (v : MethodInfo)
    (pfn : Str × MethodInfo → Bool) (hv : pfn (k, v) = false)
    (hm : ∀ y ∈ m, y.1 = k → pfn y = false) :
    (upsert m k v).filter pfn = m.filter pfn := by
  unfold upsert
  split
  · exact filter_key_map m k v pfn hv hm
  · rw [List.filter_append]
    simp [List.filter_cons, hv]

theorem foldl_preserve {α : Type} (P : Methods → Prop) (f : Methods → α → Methods)
    (l : List α) (h : ∀ acc x, x ∈ l → P acc → P (f acc x)) (init : Methods)
    (h0 : P init) : P (l.foldl f init) := by
  induction l generalizing init with
  | nil => exact h0
  | cons x rest ih =>
    simp only [List.foldl_cons]
    exact ih (fun acc y hy hacc => h acc y (List.mem_cons_of_mem x hy) hacc)
      (f init x) (h init x (List.mem_cons_self x rest) h0)

theorem ctorKey_assoc (cn : Str) :
    cn ++ str "." ++ str "constructor" = cn ++ str ".constructor" := by
  rw [List.append_assoc]
  rfl

theorem memberKey_ne_ctorKey (cn a : Str) (h : a ≠ str "constructor") :
    cn ++ str "." ++ a ≠ cn ++ str ".constructor" := by
  intro he
  rw [← ctorKey_assoc cn] at he
  exact h (List.append_cancel_left he)

/-- The invariant carried through the member loops in the proof of C7:
the map holds the constructor entry at its key, and the constructor-kind
entries are exactly that one. -/
def ctorInv (key : Str) (info : MethodInfo) (m : Methods) : Prop :=
  getM m key = some info
    ∧ m.filter (fun e => e.2.methodKind = str "constructor") = [(key, info)]

/-- C7: for every class that declares at least one constructor, processing
the class records exactly one constructor descriptor, built from the first
declared constructor, keyed `<ClassName>.constructor`, with
`methodKind = constructor` and `returns` always null (even if the first
constructor's doc comment carries a `returns` tag).  The hypotheses on
member names reflect that TypeScript forbids class members named
`constructor` other than the constructor itself. -/
theorem c7_constructor_unique (cfg : ASTParserConfig) (c : ClassDeclNode) (cn : Str)
    (k : CtorDeclNode) (ks : List CtorDeclNode) (hk : c.ctors = k :: ks)
    (hmeth : ∀ md ∈ c.methodsList, md.name ≠ str "constructor")
    (hprops : ∀ pr ∈ c.props, pr.name ≠ str "constructor")
    (hget : ∀ g ∈ c.getters, g.name ≠ str "constructor")
    (hset : ∀ st ∈ c.setters, st.name ≠ str "constructor") :
    getM (processClassDeclaration cfg c cn []) (cn ++ str ".constructor")
      = some (createMethodInfo (cn ++ str ".constructor")
          (parseJSDoc k.jsDocs).description (extractParams cfg (parseJSDoc k.jsDocs))
          none (str "constructor") false (str "public"))
    ∧ (processClassDeclaration cfg c cn []).filter
        (fun e => e.2.methodKind = str "constructor")
      = [(cn ++ str ".constructor",
          createMethodInfo (cn ++ str ".constructor")
            (parseJSDoc k.jsDocs).description (extractParams cfg (parseJSDoc k.jsDocs))
            none (str "constructor") false (str "public"))] := by
  set key := cn ++ str ".constructor" with hkeydef
  set info := createMethodInfo key (parseJSDoc k.jsDocs).description
    (extractParams cfg (parseJSDoc k.jsDocs)) none (str "constructor") false
    (str "public") with hinfodef
  have hm1 : processConstructors cfg c cn [] = [(key, info)] := by
    unfold processConstructors
    rw [hk]
    simp [upsert]
  have hP1 : ctorInv key info [(key, info)] := by
    constructor
    · simp [getM, List.find?]
    · have hki : info.methodKind = str "constructor" := rfl
      simp [List.filter, hki]
  have hstep : ∀ (m : Methods) (k' : Str) (v : MethodInfo), k' ≠ key →
      v.methodKind ≠ str "constructor" → ctorInv key info m →
      ctorInv key info (upsert m k' v) := by
    intro m k' v hne hkind hPm
    obtain ⟨hg, hf⟩ := hPm
    constructor
    · rw [getM_upsert_ne m k' key v (Ne.symm hne)]
      exact hg
    · rw [filter_upsert m k' v _ (by simpa using hkind) ?hm]
      · exact hf
      case hm =>
        intro y hy hyk
        by_contra hcontra
        rw [Bool.not_eq_false] at hcontra
        have hmemf : y ∈ m.filter (fun e => e.2.methodKind = str "constructor") :=
          List.mem_filter.mpr ⟨hy, hcontra⟩
        rw [hf, List.mem_singleton] at hmemf
        rw [hmemf] at hyk
        exact hne (hyk ▸ rfl)
  have hi1 : ∀ m, ctorInv key info m → ctorInv key info (classInstancePhase cfg c cn m) := by
    intro m hPm
    unfold classInstancePhase
    split
    · apply foldl_preserve (ctorInv key info) _ _ ?_ m hPm
      intro acc md hmd hacc
      by_cases hs : md.isStatic = true
      · simpa [hs] using hacc
      · simp only [Bool.not_eq_true] at hs
        simp only [hs, Bool.false_eq_true, if_false]
        unfold processMethod
        exact hstep acc _ _ (memberKey_ne_ctorKey cn md.name (hmeth md hmd))
          (show str "instance" ≠ str "constructor" by decide) hacc
    · exact hPm
  have hst2 : ∀ m, ctorInv key info m → ctorInv key info (classStaticPhase cfg c cn m) := by
    intro m hPm
    unfold classStaticPhase
    split
    · apply foldl_preserve (ctorInv key info) _ _ ?_ m hPm
      intro acc md hmd hacc
      have hmd' : md ∈ c.methodsList := (List.mem_filter.mp hmd).1
      unfold processMethod
      exact hstep acc _ _ (memberKey_ne_ctorKey cn md.name (hmeth md hmd'))
        (show str "static" ≠ str "constructor" by decide) hacc
    · exact hPm
  have hp3 : ∀ m, ctorInv key info m → ctorInv key info (classPropertyPhase cfg c cn m) := by
    intro m hPm
    unfold classPropertyPhase
    split
    · apply foldl_preserve (ctorInv key info) _ _ ?_ m hPm
      intro acc pr hpr hacc
      cases hinit : pr.initText with
      | none => simpa [hinit] using hacc
      | some text =>
        simp only [hinit]
        split
        · unfold processPropertyMethod
          exact hstep acc _ _ (memberKey_ne_ctorKey cn pr.name (hprops pr hpr))
            (show str "property" ≠ str "constructor" by decide) hacc
        · exact hacc
    · exact hPm
  have hg4 : ∀ m, ctorInv key info m → ctorInv key info (classGetterPhase cfg c cn m) := by
    intro m hPm
    unfold classGetterPhase
    split
    · apply foldl_preserve (ctorInv key info) _ _ ?_ m hPm
      intro acc g hgm hacc
      unfold processAccessor
      exact hstep acc _ _ (memberKey_ne_ctorKey cn g.name (hget g hgm))
        (show str "getter" ≠ str "constructor" by decide) hacc
    · exact hPm
  have hs5 : ∀ m, ctorInv key info m → ctorInv key info (classSetterPhase cfg c cn m) := by
    intro m hPm
    unfold classSetterPhase
    split
    · apply foldl_preserve (ctorInv key info) _ _ ?_ m hPm
      intro acc st hst hacc
      unfold processAccessor
      exact hstep acc _ _ (memberKey_ne_ctorKey cn st.name (hset st hst))
        (show str "setter" ≠ str "constructor" by decide) hacc
    · exact hPm
  have hPc : ctorInv key info (processConstructors cfg c cn []) := by
    rw [hm1]
    exact hP1
  exact hs5 _ (hg4 _ (hp3 _ (hst2 _ (hi1 _ hPc))))

/-- First constructor of the C7 witness class: documented, with a
return-like annotation in its doc comment. -/
def c7ctor1 : CtorDeclNode :=
  ⟨[CommentParse.blocks [⟨str "Creates it",
      [⟨str "param", str "a", str "number", str "first"⟩,
       ⟨str "returns", [], str "number", str "bogus return annotation"⟩]⟩]],
    [⟨str "a", str "number"⟩]⟩

/-- Second (overload) constructor of the C7 witness class. -/
def c7ctor2 : CtorDeclNode := ⟨[], []⟩

/-- An ordinary instance method of the C7 witness class. -/
def c7meth : MethodDeclNode := ⟨str "m1", [], [], false, false, false, false⟩

/-- The C7 witness class: two constructors and one instance method. -/
def c7class : ClassDeclNode := ⟨str "K", true, [c7ctor1, c7ctor2], [c7meth], [], [], []⟩

/-- Witness for C7 at a concrete class with two constructors and a method:
the recorded constructor entry comes from the first constructor and has a
null return. -/
theorem c7_witness :
    getM (processClassDeclaration DEFAULT_AST_CONFIG c7class (str "K") [])
        (str "K" ++ str ".constructor")
      = some (createMethodInfo (str "K" ++ str ".constructor")
          (parseJSDoc c7ctor1.jsDocs).description
          (extractParams DEFAULT_AST_CONFIG (parseJSDoc c7ctor1.jsDocs))
          none (str "constructor") false (str "public")) :=
  (c7_constructor_unique DEFAULT_AST_CONFIG c7class (str "K") c7ctor1 [c7ctor2] rfl
    (by
      intro md h
      simp only [c7class, List.mem_singleton] at h
      subst h
      decide)
    (fun pr h => absurd h (List.not_mem_nil pr))
    (fun g h => absurd h (List.not_mem_nil g))
    (fun st h => absurd h (List.not_mem_nil st))).1

/-- An undocumented setter with one declared parameter, used to refute C2. -/
def c2setter : AccessorDeclNode := ⟨str "x", [], [⟨str "v", str "number"⟩], false, false⟩

/-- C2 is refuted: a setter with no documentation comment but one declared
parameter yields a NON-empty parameter list — its value parameter is taken
from the declared signature (`getParameters()`), not from the
documentation comment. -/
theorem c2_counterexample :
    c2setter.jsDocs = []
    ∧ ((getM (processAccessor DEFAULT_AST_CONFIG c2setter (str "C") [] (str "setter"))
        (str "C" ++ str "." ++ str "x")).map (fun i => i.params.map (fun q => q.name)))
      = some [str "v"] := by
  refine ⟨rfl, ?_⟩
  decide

/-- C2 (amended): for function declarations, function-valued variables,
constructors, instance and static methods, property methods and getters,
the parameter list and return info of the produced descriptor are derived
exclusively from the parsed documentation comment — they are invariant
under the declared signature, and a member with no documentation comment
yields an empty parameter list and a null return even when its declared
signature has parameters.  Setters are the exception: the recorded value
parameter comes from the first declared parameter (name defaulting to
`value`, type text from the type checker, optional false); only its
description comes from the documentation; setters never record returns. -/
theorem c2_amended_params_from_docs (cfg : ASTParserConfig) :
    (∀ (f : FunctionDeclNode) (l : List DeclParam) (pre : Option Str) (m : Methods),
      processFunctionDeclaration cfg { f with declaredParams := l } pre m
        = processFunctionDeclaration cfg f pre m)
    ∧ (∀ (f : FunctionDeclNode) (pre : Option Str) (m : Methods), f.jsDocs = [] →
      (getM (processFunctionDeclaration cfg f pre m) (resolveName pre f.name)).map
          (fun i => (i.params, i.returns)) = some ([], none))
    ∧ (∀ (v : VariableDeclNode) (l : List DeclParam) (pre : Option Str) (m : Methods),
      processVariableDeclaration cfg { v with declaredParams := l } pre m
        = processVariableDeclaration cfg v pre m)
    ∧ (∀ (v : VariableDeclNode) (pre : Option Str) (m : Methods) (text : Str),
      v.jsDocs = [] → v.initText = some text → hasSub (str "=>") text = true →
      (getM (processVariableDeclaration cfg v pre m) (resolveName pre v.name)).map
          (fun i => (i.params, i.returns)) = some ([], none))
    ∧ (∀ (c : ClassDeclNode) (cn : Str) (m : Methods) (k : CtorDeclNode)
        (ks : List CtorDeclNode) (l : List DeclParam), c.ctors = k :: ks →
      processConstructors cfg c cn m
        = processConstructors cfg
            { c with ctors := { k with declaredParams := l } :: ks } cn m)
    ∧ (∀ (c : ClassDeclNode) (cn : Str) (m : Methods) (k : CtorDeclNode)
        (ks : List CtorDeclNode), c.ctors = k :: ks → k.jsDocs = [] →
      (getM (processConstructors cfg c cn m) (cn ++ str ".constructor")).map
          (fun i => (i.params, i.returns)) = some ([], none))
    ∧ (∀ (md : MethodDeclNode) (l : List DeclParam) (cn : Str) (m : Methods)
        (kind vis : Str),
      processMethod cfg { md with declaredParams := l } cn m kind vis
        = processMethod cfg md cn m kind vis)
    ∧ (∀ (md : MethodDeclNode) (cn : Str) (m : Methods) (kind vis : Str), md.jsDocs = [] →
      (getM (processMethod cfg md cn m kind vis) (cn ++ str "." ++ md.name)).map
          (fun i => (i.params, i.returns)) = some ([], none))
    ∧ (∀ (pr : PropertyDeclNode) (l : List DeclParam) (cn : Str) (m : Methods),
      processPropertyMethod cfg { pr with declaredParams := l } cn m
        = processPropertyMethod cfg pr cn m)
    ∧ (∀ (pr : PropertyDeclNode) (cn : Str) (m : Methods), pr.jsDocs = [] →
      (getM (processPropertyMethod cfg pr cn m) (cn ++ str "." ++ pr.name)).map
          (fun i => (i.params, i.returns)) = some ([], none))
    ∧ (∀ (a : AccessorDeclNode) (l : List DeclParam) (cn : Str) (m : Methods),
      processAccessor cfg { a with params := l } cn m (str "getter")
        = processAccessor cfg a cn m (str "getter"))
    ∧ (∀ (a : AccessorDeclNode) (cn : Str) (m : Methods), a.jsDocs = [] →
      (getM (processAccessor cfg a cn m (str "getter")) (cn ++ str "." ++ a.name)).map
          (fun i => (i.params, i.returns)) = some ([], none))
    ∧ (∀ (a : AccessorDeclNode) (cn : Str) (m : Methods) (p : DeclParam)
        (ps : List DeclParam), a.jsDocs = [] → a.params = p :: ps →
      (getM (processAccessor cfg a cn m (str "setter")) (cn ++ str "." ++ a.name)).map
          (fun i => (i.params, i.returns))
        = some ([⟨strOr p.name (str "value"), parseType cfg p.typeText, [], false⟩],
            none)) := by
  refine ⟨fun f l pre m => rfl, ?_, fun v l pre m => rfl, ?_,
    fun c cn m k ks l hk => ?_, ?_, fun md l cn m kind vis => rfl, ?_,
    fun pr l cn m => rfl, ?_, fun a l cn m => rfl, ?_, ?_⟩
  · intro f pre m hdoc
    unfold processFunctionDeclaration
    rw [hdoc, getM_upsert]
    rfl
  · intro v pre m text hdoc hinit harrow
    unfold processVariableDeclaration
    rw [hinit]
    simp only [harrow, Bool.not_true, Bool.false_and]
    rw [hdoc]
    simp only [Bool.false_eq_true, if_false]
    rw [getM_upsert]
    rfl
  · unfold processConstructors
    rw [hk]
  · intro c cn m k ks hk hdoc
    unfold processConstructors
    rw [hk]
    try dsimp only
    rw [hdoc, getM_upsert]
    rfl
  · intro md cn m kind vis hdoc
    unfold processMethod
    rw [hdoc, getM_upsert]
    rfl
  · intro pr cn m hdoc
    unfold processPropertyMethod
    rw [hdoc, getM_upsert]
    rfl
  · intro a cn m hdoc
    unfold processAccessor
    rw [hdoc, getM_upsert]
    rfl
  · intro a cn m p ps hdoc hparams
    unfold processAccessor
    rw [hdoc, hparams, getM_upsert]
    rfl

/-- An undocumented exported function with one declared parameter. -/
def c2func : FunctionDeclNode := ⟨str "g", [], [⟨str "a", str "number"⟩], false, true⟩

/-- Witness for C2 (amended): an undocumented function whose declared
signature has a parameter still yields empty params and a null return. -/
theorem c2_amended_witness :
    (getM (processFunctionDeclaration DEFAULT_AST_CONFIG c2func none [])
        (resolveName none c2func.name)).map (fun i => (i.params, i.returns))
      = some ([], none) :=
  (c2_amended_params_from_docs DEFAULT_AST_CONFIG).2.1 c2func none [] rfl

/-- Replace a failing documentation comment by no comment at all: when the
(only consulted) first block's parse throws, the list is emptied;
otherwise it is untouched. -/
def scrubDocs (l : List CommentParse) : List CommentParse :=
  match l with
  | CommentParse.throws :: _ => []
  | _ => l

theorem parseJSDoc_scrubDocs (l : List CommentParse) :
    parseJSDoc (scrubDocs l) = parseJSDoc l := by
  unfold scrubDocs
  split
  · rfl
  · rfl

/-- Scrub a function node's docs. -/
def scrubFun (f : FunctionDeclNode) : FunctionDeclNode :=
  { f with jsDocs := scrubDocs f.jsDocs }

/-- Scrub a variable node's docs. -/
def scrubVar (v : VariableDeclNode) : VariableDeclNode :=
  { v with jsDocs := scrubDocs v.jsDocs }

/-- Scrub a method node's docs. -/
def scrubMeth (md : MethodDeclNode) : MethodDeclNode :=
  { md with jsDocs := scrubDocs md.jsDocs }

/-- Scrub a property node's docs. -/
def scrubProp (pr : PropertyDeclNode) : PropertyDeclNode :=
  { pr with jsDocs := scrubDocs pr.jsDocs }

/-- Scrub a constructor node's docs. -/
def scrubCtor (k : CtorDeclNode) : CtorDeclNode :=
  { k with jsDocs := scrubDocs k.jsDocs }

/-- Scrub an accessor node's docs. -/
def scrubAcc (a : AccessorDeclNode) : AccessorDeclNode :=
  { a with jsDocs := scrubDocs a.jsDocs }

/-- Scrub every member of a class. -/
def scrubClass (c : ClassDeclNode) : ClassDeclNode :=
  { c with
    ctors := c.ctors.map scrubCtor
    methodsList := c.methodsList.map scrubMeth
    props := c.props.map scrubProp
    getters := c.getters.map scrubAcc
    setters := c.setters.map scrubAcc }

/-- Scrub a variable statement's declarations. -/
def scrubVarStmt (vs : VarStmtNode) : VarStmtNode :=
  { vs with decls := vs.decls.map scrubVar }

mutual

/-- Scrub every declaration in a namespace tree. -/
def scrubTree : NsTree → NsTree
  | NsTree.node n e hb funcs classes varStmts nested =>
    NsTree.node n e hb (funcs.map scrubFun) (classes.map scrubClass)
      (varStmts.map scrubVarStmt) (scrubTreeList nested)

/-- Scrub a list of namespace trees. -/
def scrubTreeList : List NsTree → List NsTree
  | [] => []
  | t :: rest => scrubTree t :: scrubTreeList rest

end

/-- Scrub every member declaration of a source file (module-level doc
blocks are unaffected: a throwing one is already a no-op there). -/
def scrubSF (sf : SourceFileModel) : SourceFileModel :=
  { sf with
    body := { sf.body with
      funcs := sf.body.funcs.map scrubFun
      classes := sf.body.classes.map scrubClass
      varDecls := sf.body.varDecls.map scrubVar
      namespaces := scrubTreeList sf.body.namespaces } }

theorem foldl_map_eq {α : Type} (σ : α → α) (f : Methods → α → Methods)
    (l : List α) (h : ∀ acc x, x ∈ l → f acc (σ x) = f acc x) (init : Methods) :
    (l.map σ).foldl f init = l.foldl f init := by
  induction l generalizing init with
  | nil => rfl
  | cons x rest ih =>
    simp only [List.map_cons, List.foldl_cons]
    rw [h init x (List.mem_cons_self x rest)]
    exact ih (fun acc y hy => h acc y (List.mem_cons_of_mem x hy)) (f init x)

theorem processFunctionDeclaration_scrub (cfg : ASTParserConfig) (f : FunctionDeclNode)
    (pre : Option Str) (m : Methods) :
    processFunctionDeclaration cfg (scrubFun f) pre m
      = processFunctionDeclaration cfg f pre m := by
  unfold processFunctionDeclaration scrubFun
  rw [parseJSDoc_scrubDocs]

theorem processVariableDeclaration_scrub (cfg : ASTParserConfig) (v : VariableDeclNode)
    (pre : Option Str) (m : Methods) :
    processVariableDeclaration cfg (scrubVar v) pre m
      = processVariableDeclaration cfg v pre m := by
  unfold processVariableDeclaration scrubVar
  rw [parseJSDoc_scrubDocs]

theorem processMethod_scrub (cfg : ASTParserConfig) (md : MethodDeclNode) (cn : Str)
    (m : Methods) (kind vis : Str) :
    processMethod cfg (scrubMeth md) cn m kind vis = processMethod cfg md cn m kind vis := by
  unfold processMethod scrubMeth
  rw [parseJSDoc_scrubDocs]

theorem processPropertyMethod_scrub (cfg : ASTParserConfig) (pr : PropertyDeclNode)
    (cn : Str) (m : Methods) :
    processPropertyMethod cfg (scrubProp pr) cn m = processPropertyMethod cfg pr cn m := by
  unfold processPropertyMethod scrubProp
  rw [parseJSDoc_scrubDocs]

theorem processAccessor_scrub (cfg : ASTParserConfig) (a : AccessorDeclNode) (cn : Str)
    (m : Methods) (kind : Str) :
    processAccessor cfg (scrubAcc a) cn m kind = processAccessor cfg a cn m kind := by
  unfold processAccessor scrubAcc
  rw [parseJSDoc_scrubDocs]

theorem processConstructors_scrub (cfg : ASTParserConfig) (c : ClassDeclNode) (cn : Str)
    (m : Methods) :
    processConstructors cfg (scrubClass c) cn m = processConstructors cfg c cn m := by
  unfold processConstructors scrubClass
  cases c.ctors with
  | nil => rfl
  | cons k ks =>
    simp only [List.map_cons]
    unfold scrubCtor
    rw [parseJSDoc_scrubDocs]

theorem classInstancePhase_scrub (cfg : ASTParserConfig) (c : ClassDeclNode) (cn : Str)
    (m : Methods) :
    classInstancePhase cfg (scrubClass c) cn m = classInstancePhase cfg c cn m := by
  unfold classInstancePhase
  have hml : (scrubClass c).methodsList = c.methodsList.map scrubMeth := rfl
  rw [hml]
  split
  · apply foldl_map_eq
    intro acc md hmd
    have h1 : (scrubMeth md).isStatic = md.isStatic := rfl
    have h2 : (scrubMeth md).hasPrivateModifier = md.hasPrivateModifier := rfl
    have h3 : (scrubMeth md).hasProtectedModifier = md.hasProtectedModifier := rfl
    try dsimp only
    rw [h1, h2, h3, processMethod_scrub]
  · rfl

theorem classStaticPhase_scrub (cfg : ASTParserConfig) (c : ClassDeclNode) (cn : Str)
    (m : Methods) :
    classStaticPhase cfg (scrubClass c) cn m = classStaticPhase cfg c cn m := by
  unfold classStaticPhase
  have hml : (scrubClass c).methodsList = c.methodsList.map scrubMeth := rfl
  rw [hml, List.filter_map]
  have hfil : c.methodsList.filter ((fun md => md.isStatic) ∘ scrubMeth)
      = c.methodsList.filter (fun md => md.isStatic) := by
    apply List.filter_congr
    intro md hmd
    rfl
  rw [hfil]
  split
  · apply foldl_map_eq
    intro acc md hmd
    have h2 : (scrubMeth md).hasPrivateModifier = md.hasPrivateModifier := rfl
    have h3 : (scrubMeth md).hasProtectedModifier = md.hasProtectedModifier := rfl
    try dsimp only
    rw [h2, h3, processMethod_scrub]
  · rfl

theorem classPropertyPhase_scrub (cfg : ASTParserConfig) (c : ClassDeclNode) (cn : Str)
    (m : Methods) :
    classPropertyPhase cfg (scrubClass c) cn m = classPropertyPhase cfg c cn m := by
  unfold classPropertyPhase
  have hpl : (scrubClass c).props = c.props.map scrubProp := rfl
  rw [hpl]
  split
  · apply foldl_map_eq
    intro acc pr hpr
    have h1 : (scrubProp pr).initText = pr.initText := rfl
    try dsimp only
    rw [h1]
    cases hinit : pr.initText with
    | none => rfl
    | some text =>
      try dsimp only
      split
      · rw [processPropertyMethod_scrub]
      · rfl
  · rfl

theorem classGetterPhase_scrub (cfg : ASTParserConfig) (c : ClassDeclNode) (cn : Str)
    (m : Methods) :
    classGetterPhase cfg (scrubClass c) cn m = classGetterPhase cfg c cn m := by
  unfold classGetterPhase
  have hgl : (scrubClass c).getters = c.getters.map scrubAcc := rfl
  rw [hgl]
  split
  · apply foldl_map_eq
    intro acc g hg
    try dsimp only
    rw [processAccessor_scrub]
  · rfl

theorem classSetterPhase_scrub (cfg : ASTParserConfig) (c : ClassDeclNode) (cn : Str)
    (m : Methods) :
    classSetterPhase cfg (scrubClass c) cn m = classSetterPhase cfg c cn m := by
  unfold classSetterPhase
  have hsl : (scrubClass c).setters = c.setters.map scrubAcc := rfl
  rw [hsl]
  split
  · apply foldl_map_eq
    intro acc st hst
    try dsimp only
    rw [processAccessor_scrub]
  · rfl

theorem processClassDeclaration_scrub (cfg : ASTParserConfig) (c : ClassDeclNode)
    (cn : Str) (m : Methods) :
    processClassDeclaration cfg (scrubClass c) cn m = processClassDeclaration cfg c cn m := by
  unfold processClassDeclaration
  rw [processConstructors_scrub, classInstancePhase_scrub, classStaticPhase_scrub,
    classPropertyPhase_scrub, classGetterPhase_scrub, classSetterPhase_scrub]

theorem scrubTree_name (t : NsTree) : (scrubTree t).name = t.name := by
  cases t with
  | node n e hb funcs classes varStmts nested => simp [scrubTree, NsTree.name]

theorem scrubTree_isExported (t : NsTree) : (scrubTree t).isExported = t.isExported := by
  cases t with
  | node n e hb funcs classes varStmts nested => simp [scrubTree, NsTree.isExported]

mutual

theorem processNs_scrub (cfg : ASTParserConfig) (nsName : Str) (t : NsTree)
    (m : Methods) : processNs cfg nsName (scrubTree t) m = processNs cfg nsName t m := by
  cases t with
  | node n e hb funcs classes varStmts nested =>
    have hfuns : ∀ (acc : Methods) (f : FunctionDeclNode), f ∈ funcs →
        (fun (acc : Methods) (f : FunctionDeclNode) =>
          if f.isExported = true then
            processFunctionDeclaration cfg f (some (nsName ++ str "." ++ f.name)) acc
          else acc) acc (scrubFun f)
          = (fun (acc : Methods) (f : FunctionDeclNode) =>
          if f.isExported = true then
            processFunctionDeclaration cfg f (some (nsName ++ str "." ++ f.name)) acc
          else acc) acc f := by
      intro acc f hf
      have h1 : (scrubFun f).isExported = f.isExported := rfl
      have h2 : (scrubFun f).name = f.name := rfl
      dsimp only
      rw [h1, h2, processFunctionDeclaration_scrub]
    have hcls : ∀ (acc : Methods) (c : ClassDeclNode), c ∈ classes →
        (fun (acc : Methods) (c : ClassDeclNode) =>
          if c.isExported = true then
            processClassDeclaration cfg c (nsName ++ str "." ++ c.name) acc
          else acc) acc (scrubClass c)
          = (fun (acc : Methods) (c : ClassDeclNode) =>
          if c.isExported = true then
            processClassDeclaration cfg c (nsName ++ str "." ++ c.name) acc
          else acc) acc c := by
      intro acc c hc
      have h1 : (scrubClass c).isExported = c.isExported := rfl
      have h2 : (scrubClass c).name = c.name := rfl
      dsimp only
      rw [h1, h2, processClassDeclaration_scrub]
    have hvss : ∀ (acc : Methods) (vs : VarStmtNode), vs ∈ varStmts →
        (fun (acc : Methods) (vs : VarStmtNode) =>
          if vs.isExported = true then
            vs.decls.foldl (fun a d =>
              processVariableDeclaration cfg d (some (nsName ++ str "." ++ d.name)) a) acc
          else acc) acc (scrubVarStmt vs)
          = (fun (acc : Methods) (vs : VarStmtNode) =>
          if vs.isExported = true then
            vs.decls.foldl (fun a d =>
              processVariableDeclaration cfg d (some (nsName ++ str "." ++ d.name)) a) acc
          else acc) acc vs := by
      intro acc vs hvs
      have h1 : (scrubVarStmt vs).isExported = vs.isExported := rfl
      have h2 : (scrubVarStmt vs).decls = vs.decls.map scrubVar := rfl
      dsimp only
      rw [h1, h2]
      have hinner : ∀ (a : Methods) (d : VariableDeclNode), d ∈ vs.decls →
          (fun (a : Methods) (d : VariableDeclNode) =>
            processVariableDeclaration cfg d (some (nsName ++ str "." ++ d.name)) a)
            a (scrubVar d)
            = (fun (a : Methods) (d : VariableDeclNode) =>
            processVariableDeclaration cfg d (some (nsName ++ str "." ++ d.name)) a) a d := by
        intro a d hd
        have h3 : (scrubVar d).name = d.name := rfl
        dsimp only
        rw [h3, processVariableDeclaration_scrub]
      rw [foldl_map_eq scrubVar _ vs.decls hinner]
    simp only [scrubTree, processNs]
    rw [foldl_map_eq scrubFun _ funcs hfuns,
      foldl_map_eq scrubClass _ classes hcls,
      foldl_map_eq scrubVarStmt _ varStmts hvss,
      processNsList_scrub cfg nsName nested]

theorem processNsList_scrub (cfg : ASTParserConfig) (nsName : Str) (ts : List NsTree)
    (m : Methods) :
    processNsList cfg nsName (scrubTreeList ts) m = processNsList cfg nsName ts m := by
  cases ts with
  | nil => simp [scrubTreeList]
  | cons t rest =>
    simp only [scrubTreeList, processNsList]
    rw [scrubTree_isExported, scrubTree_name, processNs_scrub cfg _ t m,
      processNsList_scrub cfg nsName rest]

end

theorem scrubTreeList_eq_map (ts : List NsTree) : scrubTreeList ts = ts.map scrubTree := by
  induction ts with
  | nil => simp [scrubTreeList]
  | cons t rest ih => simp [scrubTreeList, ih]

theorem parseSourceFile_scrub (cfg : ASTParserConfig) (sf : SourceFileModel) :
    parseSourceFile cfg (scrubSF sf) = parseSourceFile cfg sf := by
  have hfb : (scrubSF sf).body.funcs = sf.body.funcs.map scrubFun := rfl
  have hcb : (scrubSF sf).body.classes = sf.body.classes.map scrubClass := rfl
  have hvb : (scrubSF sf).body.varDecls = sf.body.varDecls.map scrubVar := rfl
  have hnb : (scrubSF sf).body.namespaces = sf.body.namespaces.map scrubTree := by
    show scrubTreeList sf.body.namespaces = _
    exact scrubTreeList_eq_map sf.body.namespaces
  have hmod : extractModuleInfo (scrubSF sf) = extractModuleInfo sf := rfl
  unfold parseSourceFile
  dsimp only
  rw [hfb, hcb, hvb, hnb, hmod]
  have hfuns : ∀ (acc : Methods) (f : FunctionDeclNode), f ∈ sf.body.funcs →
      (fun (acc : Methods) (f : FunctionDeclNode) =>
        if f.isExported = true then processFunctionDeclaration cfg f none acc
        else acc) acc (scrubFun f)
        = (fun (acc : Methods) (f : FunctionDeclNode) =>
        if f.isExported = true then processFunctionDeclaration cfg f none acc
        else acc) acc f := by
    intro acc f hf
    have h1 : (scrubFun f).isExported = f.isExported := rfl
    dsimp only
    rw [h1, processFunctionDeclaration_scrub]
  have hcls : ∀ (acc : Methods) (c : ClassDeclNode), c ∈ sf.body.classes →
      (fun (acc : Methods) (c : ClassDeclNode) =>
        if c.isExported = true then processClassDeclaration cfg c c.name acc
        else acc) acc (scrubClass c)
        = (fun (acc : Methods) (c : ClassDeclNode) =>
        if c.isExported = true then processClassDeclaration cfg c c.name acc
        else acc) acc c := by
    intro acc c hc
    have h1 : (scrubClass c).isExported = c.isExported := rfl
    have h2 : (scrubClass c).name = c.name := rfl
    dsimp only
    rw [h1, h2, processClassDeclaration_scrub]
  have hvars : ∀ (acc : Methods) (d : VariableDeclNode), d ∈ sf.body.varDecls →
      (fun (acc : Methods) (d : VariableDeclNode) =>
        if d.isExported = true then processVariableDeclaration cfg d none acc
        else acc) acc (scrubVar d)
        = (fun (acc : Methods) (d : VariableDeclNode) =>
        if d.isExported = true then processVariableDeclaration cfg d none acc
        else acc) acc d := by
    intro acc d hd
    have h1 : (scrubVar d).isExported = d.isExported := rfl
    dsimp only
    rw [h1, processVariableDeclaration_scrub]
  have hns : ∀ (acc : Methods) (t : NsTree), t ∈ sf.body.namespaces →
      (fun (acc : Methods) (t : NsTree) =>
        if t.isExported = true then processNs cfg t.name t acc else acc) acc (scrubTree t)
        = (fun (acc : Methods) (t : NsTree) =>
        if t.isExported = true then processNs cfg t.name t acc else acc) acc t := by
    intro acc t ht
    dsimp only
    rw [scrubTree_isExported, scrubTree_name, processNs_scrub]
  rw [foldl_map_eq scrubFun _ sf.body.funcs hfuns,
    foldl_map_eq scrubClass _ sf.body.classes hcls,
    foldl_map_eq scrubVar _ sf.body.varDecls hvars,
    foldl_map_eq scrubTree _ sf.body.namespaces hns]

/-- C9: a documentation comment that is present but fails structured
parsing (the external comment parser throws) degrades to an empty
description and empty tag list for that one member — the extractor's
catch swallows the exception — and the failure never propagates: the full
specification walk of any source file equals the walk of the same file
with every failing comment simply absent, so every other member's
descriptor is untouched and generation completes normally. -/
theorem c9_doc_failure_recovery (cfg : ASTParserConfig) :
    (∀ rest : List CommentParse,
      parseJSDoc (CommentParse.throws :: rest) = ⟨[], []⟩)
    ∧ (∀ sf : SourceFileModel, parseSourceFile cfg sf = parseSourceFile cfg (scrubSF sf)) :=
  ⟨fun _ => rfl, fun sf => (parseSourceFile_scrub cfg sf).symm⟩
